import Mathlib

/-!
Verification of the mega monorepo pack-transfer core.

The development shallowly embeds the Rust sources:
* `GitObj` — the byte-level object codec from `src/git/internal/object/`
  (`tree.rs`, `signature.rs`).  Rust `Vec<u8>`/`String` values are modelled
  as `List Nat` of byte values; a Rust `String` is represented by its UTF-8
  byte sequence.  Fallible operations (including `unwrap` panics and slice
  out-of-bounds panics) are modelled by `Option`.
* `Ceres` — the monorepo pack handler from `ceres/src/pack/monorepo.rs`:
  merge-request handling on push (`unpack`), subpath head-hash resolution
  (`head_hash`) and the incremental pack computation (`incremental_pack`).
  Storage-layer collaborators whose sources are not part of the embedded
  tree are modelled from the specification and marked as such.
-/

namespace GitObj

/-- First index of byte `b` in a byte list (bstr `find_byte`). -/
def find_byte (b : Nat) : List Nat → Option Nat
  | [] => none
  | x :: xs => if x = b then some 0 else (find_byte b xs).map (· + 1)

/-- Rust `splitn(2, sep)`: the bytes before the first `sep`, and—when a
separator occurs—the remaining bytes after it (`none` when no separator
occurs, modelling the second `parts.next()` returning `None`). -/
def splitn2 (sep : Nat) : List Nat → List Nat × Option (List Nat)
  | [] => ([], none)
  | b :: bs =>
    if b = sep then ([], some bs)
    else
      let r := splitn2 sep bs
      (b :: r.1, r.2)

/-- Continuation byte test for UTF-8 (`0x80..=0xBF`). -/
def utf8Cont (b : Nat) : Bool := 0x80 ≤ b && b ≤ 0xBF

/-- Strict UTF-8 validity of a byte sequence, as checked by Rust
`String::from_utf8` (RFC 3629: no overlong forms, no surrogates,
max `U+10FFFF`). -/
def utf8Valid : List Nat → Bool
  | [] => true
  | b :: bs =>
    if b ≤ 0x7F then utf8Valid bs
    else if 0xC2 ≤ b && b ≤ 0xDF then
      match bs with
      | c1 :: bs' => utf8Cont c1 && utf8Valid bs'
      | [] => false
    else if b = 0xE0 then
      match bs with
      | c1 :: c2 :: bs' => (0xA0 ≤ c1 && c1 ≤ 0xBF) && utf8Cont c2 && utf8Valid bs'
      | _ => false
    else if (0xE1 ≤ b && b ≤ 0xEC) || b = 0xEE || b = 0xEF then
      match bs with
      | c1 :: c2 :: bs' => utf8Cont c1 && utf8Cont c2 && utf8Valid bs'
      | _ => false
    else if b = 0xED then
      match bs with
      | c1 :: c2 :: bs' => (0x80 ≤ c1 && c1 ≤ 0x9F) && utf8Cont c2 && utf8Valid bs'
      | _ => false
    else if b = 0xF0 then
      match bs with
      | c1 :: c2 :: c3 :: bs' =>
        (0x90 ≤ c1 && c1 ≤ 0xBF) && utf8Cont c2 && utf8Cont c3 && utf8Valid bs'
      | _ => false
    else if 0xF1 ≤ b && b ≤ 0xF3 then
      match bs with
      | c1 :: c2 :: c3 :: bs' => utf8Cont c1 && utf8Cont c2 && utf8Cont c3 && utf8Valid bs'
      | _ => false
    else if b = 0xF4 then
      match bs with
      | c1 :: c2 :: c3 :: bs' =>
        (0x80 ≤ c1 && c1 ≤ 0x8F) && utf8Cont c2 && utf8Cont c3 && utf8Valid bs'
      | _ => false
    else false

/-- Rust `String::from_utf8` on the byte-list model of strings: succeeds
exactly on valid UTF-8, returning the same bytes. -/
def string_from_utf8 (bs : List Nat) : Option (List Nat) :=
  if utf8Valid bs then some bs else none

/-- Modelled from the spec: `Hash` is a 20-byte opaque identifier
(`src/git/hash.rs` is not part of the embedded sources); `from_bytes`
records the bytes and `to_bytes` returns them. -/
structure Hash where
  data : List Nat
deriving DecidableEq, Repr

def Hash.from_bytes (bs : List Nat) : Hash := ⟨bs⟩

def Hash.to_bytes (h : Hash) : List Nat := h.data

/-- Embeds `TreeItemMode` from `tree.rs`. -/
inductive TreeItemMode
  | Blob
  | BlobExecutable
  | Tree
  | Commit
  | Link
deriving DecidableEq, Repr

/-- ASCII bytes of the canonical mode tokens. -/
def tok40000 : List Nat := [52, 48, 48, 48, 48]
def tok100644 : List Nat := [49, 48, 48, 54, 52, 52]
def tok100755 : List Nat := [49, 48, 48, 55, 53, 53]
def tok120000 : List Nat := [49, 50, 48, 48, 48, 48]
def tok160000 : List Nat := [49, 54, 48, 48, 48, 48]
def tok100664 : List Nat := [49, 48, 48, 54, 54, 52]
def tok100640 : List Nat := [49, 48, 48, 54, 52, 48]

/-- Embeds `TreeItemMode::to_bytes`. -/
def TreeItemMode.to_bytes : TreeItemMode → List Nat
  | .Blob => tok100644
  | .BlobExecutable => tok100755
  | .Link => tok120000
  | .Tree => tok40000
  | .Commit => tok160000

/-- Embeds `TreeItemMode::tree_item_type_from`: `none` models the
`GitError::InvalidTreeItem` return. -/
def tree_item_type_from (mode : List Nat) : Option TreeItemMode :=
  if mode = tok40000 then some .Tree
  else if mode = tok100644 then some .Blob
  else if mode = tok100755 then some .BlobExecutable
  else if mode = tok120000 then some .Link
  else if mode = tok160000 then some .Commit
  else if mode = tok100664 then some .Blob
  else if mode = tok100640 then some .Blob
  else none

/-- Embeds `TreeItem` from `tree.rs`; `name` is the UTF-8 byte sequence of the
Rust `String`. -/
structure TreeItem where
  mode : TreeItemMode
  id : Hash
  name : List Nat
deriving DecidableEq, Repr

/-- Embeds `TreeItem::new_from_bytes`: split at the first space into mode and
rest, split the rest at the first NUL into name and id bytes; `none`
models both the `unwrap` panics on a missing separator and the parse
errors (unknown mode, invalid UTF-8 name). -/
def TreeItem.new_from_bytes (bytes : List Nat) : Option TreeItem :=
  let p1 := splitn2 32 bytes
  match p1.2 with
  | none => none
  | some rest =>
    let p2 := splitn2 0 rest
    match p2.2 with
    | none => none
    | some idBytes =>
      match tree_item_type_from p1.1 with
      | none => none
      | some m =>
        match string_from_utf8 p2.1 with
        | none => none
        | some nm => some ⟨m, Hash.from_bytes idBytes, nm⟩

/-- Embeds `TreeItem::to_bytes`: `mode SP name NUL hash-bytes`. -/
def TreeItem.to_bytes (it : TreeItem) : List Nat :=
  it.mode.to_bytes ++ [32] ++ it.name ++ [0] ++ it.id.to_bytes

/-- Embeds `Meta` (from `meta.rs`, not part of the embedded sources): the fields
`new_from_meta` reads, a declared `size` and the raw `data` bytes. -/
structure Meta where
  size : Nat
  data : List Nat
deriving DecidableEq, Repr

/-- Embeds `Tree` from `tree.rs`. -/
structure Tree where
  meta : Meta
  tree_items : List TreeItem
deriving DecidableEq, Repr

/-- The entry loop of `Tree::new_from_meta`, with explicit iteration
fuel (the cursor advances by at least 21 every round, so `meta.size + 1`
rounds always suffice): while `i < meta.size`, find the next NUL from
position `i`, take 21 further bytes past it as the end of the entry,
parse the slice as a `TreeItem` and continue at `next`.  `none` models
the `unwrap` panic when no NUL remains and the slice panic when `next`
exceeds the data length. -/
def treeItemsGo (meta : Meta) : Nat → Nat → Option (List TreeItem)
  | 0, i => if i < meta.size then none else some []
  | fuel + 1, i =>
    if i < meta.size then
      match find_byte 0 (meta.data.drop i) with
      | none => none
      | some idx =>
        if i + idx + 21 ≤ meta.data.length then
          match TreeItem.new_from_bytes ((meta.data.drop i).take (idx + 21)) with
          | none => none
          | some it =>
            match treeItemsGo meta fuel (i + idx + 21) with
            | none => none
            | some its => some (it :: its)
        else none
    else some []

def treeItemsLoop (meta : Meta) (i : Nat) : Option (List TreeItem) :=
  treeItemsGo meta (meta.size + 1 - i) i

/-- Embeds `Tree::new_from_meta`. -/
def Tree.new_from_meta (meta : Meta) : Option Tree :=
  match treeItemsLoop meta 0 with
  | none => none
  | some its => some ⟨meta, its⟩

/-- Embeds `SignatureType` from `signature.rs`. -/
inductive SignatureType
  | Author
  | Committer
deriving DecidableEq, Repr

/-- ASCII bytes of `"author"` and `"committer"`. -/
def authorBytes : List Nat := [97, 117, 116, 104, 111, 114]
def committerBytes : List Nat := [99, 111, 109, 109, 105, 116, 116, 101, 114]

/-- Embeds `SignatureType::from_data` (via `from_str`): only the exact byte
sequences `"author"`/`"committer"` are accepted. -/
def SignatureType.from_data (bs : List Nat) : Option SignatureType :=
  if bs = authorBytes then some .Author
  else if bs = committerBytes then some .Committer
  else none

/-- Rust slice `bs[a..b]`: `none` models the panic when `a > b` or
`b > bs.len()`. -/
def slice (bs : List Nat) (a b : Nat) : Option (List Nat) :=
  if a ≤ b ∧ b ≤ bs.length then some ((bs.drop a).take (b - a)) else none

/-- Decimal `usize` parse (`str::parse::<usize>`): nonempty all-digit
strings only. -/
def parseDec (bs : List Nat) : Option Nat :=
  if bs ≠ [] ∧ bs.all (fun b => 48 ≤ b && b ≤ 57) then
    some (bs.foldl (fun a b => a * 10 + (b - 48)) 0)
  else none

/-- Embeds `Signature` from `signature.rs`; strings are modelled by their UTF-8
bytes. -/
structure Signature where
  signature_type : SignatureType
  name : List Nat
  email : List Nat
  timestamp : Nat
  timezone : List Nat
deriving DecidableEq, Repr

/-- Embeds `Signature::new_from_data`: locate the first space, `<` and `>`;
parse the type, name and email; then split the remainder after `"> "`
at the next space into timestamp and timezone.  Every `unwrap` panic
(missing separator, bad slice bounds, non-UTF-8 text, bad decimal) is
modelled by `none`.  The fields of the mutated receiver are all
overwritten, so the parse is modelled as producing a fresh value. -/
def Signature.new_from_data (data : List Nat) : Option Signature :=
  match find_byte 32 data with
  | none => none
  | some name_start =>
    match SignatureType.from_data (data.take name_start) with
    | none => none
    | some st =>
      match find_byte 60 data, find_byte 62 data with
      | some email_start, some email_end =>
        match slice data (name_start + 1) (email_start - 1),
              slice data (email_start + 1) email_end with
        | some nmB, some emB =>
          match string_from_utf8 nmB, string_from_utf8 emB with
          | some nm, some em =>
            let sign2 := data.drop (email_end + 2)
            match find_byte 32 sign2 with
            | none => none
            | some ts_split =>
              match parseDec (sign2.take ts_split),
                    string_from_utf8 (sign2.drop (ts_split + 1)) with
              | some ts, some tz => some ⟨st, nm, em, ts, tz⟩
              | _, _ => none
          | _, _ => none
        | _, _ => none
      | _, _ => none

end GitObj

namespace Ceres

/-- Embeds `ObjectType` from the pack entry types (`venus`). -/
inductive ObjectType
  | Commit
  | Tree
  | Blob
  | Tag
deriving DecidableEq, Repr

/-- A decoded pack `Entry` as the persistence sink sees it: the object
kind and the object hash (hashes are the hex strings the handler passes
around). -/
structure Entry where
  obj_type : ObjectType
  hash : String
deriving DecidableEq, Repr

/-- Storage-level tree entry mode (`venus` `TreeItemMode`): what the
graph walk needs — directory, file-like, symlink or submodule pointer. -/
inductive SMode
  | Tree
  | Blob
  | Link
  | Commit
deriving DecidableEq, Repr

/-- Storage-level tree entry: mode, entry name, child hash. -/
structure TreeItem where
  mode : SMode
  name : String
  id : String
deriving DecidableEq, Repr

/-- Storage-level tree: its hash and its entries. -/
structure Tree where
  id : String
  tree_items : List TreeItem
deriving DecidableEq, Repr

/-- Storage-level commit: hash, root tree hash, parent hashes, message. -/
structure Commit where
  id : String
  tree_id : String
  parent_commit_ids : List String
  message : String
deriving DecidableEq, Repr

/-- A stored reference row: subpath, referenced commit hash, its tree
hash (the columns `save_ref` writes). -/
structure MegaRef where
  path : String
  ref_commit_hash : String
  ref_tree_hash : String
deriving DecidableEq, Repr

/-- Merge-request states (`MergeStatus` in `venus`). -/
inductive MergeStatus
  | Open
  | Closed
  | Merged
deriving DecidableEq, Repr

/-- Embeds `MergeRequest` record. -/
structure MergeRequest where
  id : Nat
  path : String
  from_hash : String
  to_hash : String
  status : MergeStatus
deriving DecidableEq, Repr

/-- Modelled from the spec: `MergeRequest::close` (in `venus`, not part of
the embedded sources) moves the state to `Closed`. -/
def MergeRequest.close (mr : MergeRequest) : MergeRequest :=
  { mr with status := MergeStatus.Closed }

/-- A merge-request comment row as written by `add_mr_comment`:
merge-request id, acting user id, optional text. -/
structure MRComment where
  mr_id : Nat
  user_id : Nat
  text : Option String
deriving DecidableEq, Repr

/-- The object store state: the tables the monorepo pack handler touches. -/
structure Storage where
  commits : List Commit
  trees : List Tree
  refs : List MegaRef
  mrs : List MergeRequest
  comments : List MRComment
  entries : List Entry
deriving DecidableEq, Repr

/-- The `MonoRepo` handler value: target subpath and the push's
`from`/`to` hashes (absent on fetch). -/
structure MonoRepo where
  path : String
  from_hash : Option String
  to_hash : Option String
deriving DecidableEq, Repr

/-- Modelled from the spec (§4.3 `get_commit`): hash lookup in the commit
table. -/
def get_commit_by_hash (s : Storage) (h : String) : Option Commit :=
  s.commits.find? (fun c => c.id == h)

/-- Modelled from the spec (§4.3 `get_tree`): hash lookup in the tree
table; `get_trees_by_hashes(_, vec![h])[0]` is this lookup with a panic
(`none`) when the hash is absent. -/
def get_tree_by_hash (s : Storage) (h : String) : Option Tree :=
  s.trees.find? (fun t => t.id == h)

/-- Modelled from the spec (§4.3 `get_commits`): batched lookup, missing
hashes simply absent. -/
def get_commits_by_hashes (s : Storage) (hs : List String) : List Commit :=
  hs.filterMap (get_commit_by_hash s)

/-- Modelled from the spec (§4.3 `get_ref`): latest stored reference for
a subpath. -/
def get_ref (s : Storage) (p : String) : Option MegaRef :=
  s.refs.find? (fun r => r.path == p)

/-- Modelled from the spec (§4.3 `save_ref`, atomic replace): overwrite
the row for the subpath, inserting it when absent. -/
def save_ref (s : Storage) (p c t : String) : Storage :=
  if s.refs.any (fun r => r.path == p) then
    { s with refs := s.refs.map (fun r => if r.path = p then ⟨p, c, t⟩ else r) }
  else
    { s with refs := s.refs ++ [⟨p, c, t⟩] }

/-- Embeds `save_mega_commits`: append the commits to the commit table. -/
def save_mega_commits (s : Storage) (cs : List Commit) : Storage :=
  { s with commits := s.commits ++ cs }

/-- Modelled from the spec (§4.3 `open_mr`): the open merge request for a
path, if any. -/
def get_open_mr (s : Storage) (p : String) : Option MergeRequest :=
  s.mrs.find? (fun m => m.status == MergeStatus.Open && m.path == p)

/-- Modelled from the spec (§4.3 `save_mr`): insert the merge-request
row as given (a fresh MR is saved Open). -/
def save_mr (s : Storage) (mr : MergeRequest) : Storage :=
  { s with mrs := s.mrs ++ [mr] }

/-- Modelled from the spec (§4.3 `update_mr`): replace the row with the
merge request's id. -/
def update_mr (s : Storage) (mr : MergeRequest) : Storage :=
  { s with mrs := s.mrs.map (fun m => if m.id = mr.id then mr else m) }

/-- Modelled from the spec (§4.3 `add_mr_comment`): append a comment
row. -/
def add_mr_comment (s : Storage) (id actor : Nat) (text : Option String) : Storage :=
  { s with comments := s.comments ++ [⟨id, actor, text⟩] }

/-- Embeds `save_entry` store operation: append the flushed batch to the entry
table (idempotent by hash at the store; the handler-visible effect is
the append). -/
def save_entry_op (s : Storage) (es : List Entry) : Storage :=
  { s with entries := s.entries ++ es }

/-- The batching loop of `MonoRepo::save_entry`: count commits, buffer
entries, flush batches of 1000 and the final partial batch; returns the
commit count and the updated store. -/
def save_entry_go (s : Storage) : List Entry → List Entry → Nat → Nat × Storage
  | [], buf, n => (n, save_entry_op s buf)
  | e :: es, buf, n =>
    let n' := if e.obj_type == ObjectType.Commit then n + 1 else n
    let buf' := buf ++ [e]
    if buf'.length ≥ 1000 then save_entry_go (save_entry_op s buf') es [] n'
    else save_entry_go s es buf' n'

/-- Embeds `MonoRepo::save_entry`: drain the decoded entry sequence into the
store, returning the number of commits seen. -/
def save_entry (s : Storage) (es : List Entry) : Nat × Storage :=
  save_entry_go s es [] 0

/-- Embeds `MonoRepo::get_mr`: the open MR for the path, or a fresh one built
from the push's `from`/`to` hashes (`none` models the `unwrap` panics on
an absent `from_hash`/`to_hash`); the boolean records whether the MR
already existed. -/
def get_mr (repo : MonoRepo) (s : Storage) : Option (MergeRequest × Bool) :=
  match get_open_mr s repo.path with
  | some mr => some (mr, true)
  | none =>
    match repo.from_hash, repo.to_hash with
    | some f, some t => some (⟨0, repo.path, f, t, MergeStatus.Open⟩, false)
    | _, _ => none

/-- First six bytes of an ASCII hash string (Rust `&s[..6]`). -/
def pre6 (s : String) : String := ⟨s.toList.take 6⟩

/-- Embeds `MonoRepo::comment_for_force_update`: note that the handler passes
the stored `to_hash` as `from` and the incoming `to_hash` as `to`;
`none` models the slice panic on hashes shorter than six bytes. -/
def comment_for_force_update (f t : String) : Option String :=
  if 6 ≤ f.toList.length ∧ 6 ≤ t.toList.length then
    some ("Mega updated the mr automatic from " ++ pre6 f ++ " to " ++ pre6 t)
  else none

/-- The multi-commit epilogue of `MonoRepo::unpack`: when the pack held
more than one commit, close the local MR value and add a comment — no
`update_mr`/`save_mr` follows, so the closed state reaches only the
comment table. -/
def multiCheck (mr : MergeRequest) (csize : Nat) (s : Storage) : Option Storage :=
  if csize > 1 then
    some (add_mr_comment (let _ := mr.close; s) mr.id 0
      (some "Mega closed MR due to multi commit detected"))
  else some s

/-- Embeds `MonoRepo::unpack`: drive the merge-request state machine over the
decoded entries (the receiver channel is modelled by the entry list).
Branches follow the source: existing MR with matching `from_hash` and
differing `to_hash` → force-update comment, update, persist; matching
`from_hash` and equal `to_hash` → nothing but the trailing `update_mr`;
differing `from_hash` → close with conflict comment, no persist; no MR →
persist and save a fresh open MR.  Afterwards the multi-commit check. -/
def unpack (repo : MonoRepo) (entries : List Entry) (s : Storage) : Option Storage :=
  match get_mr repo s with
  | none => none
  | some (mr, mrExist) =>
    if mrExist then
      match repo.from_hash with
      | none => none
      | some f =>
        if mr.from_hash = f then
          match repo.to_hash with
          | none => none
          | some t =>
            if mr.to_hash ≠ t then
              match comment_for_force_update mr.to_hash t with
              | none => none
              | some cmt =>
                let mr1 := { mr with to_hash := t }
                let s1 := add_mr_comment s mr.id 0 (some cmt)
                let r := save_entry s1 entries
                let s3 := update_mr r.2 mr1
                multiCheck mr1 r.1 s3
            else
              multiCheck mr 0 (update_mr s mr)
        else
          let mr1 := mr.close
          let s1 := add_mr_comment s mr.id 0 (some "Mega closed MR due to conflict")
          let s2 := update_mr s1 mr1
          multiCheck mr1 0 s2
    else
      let r := save_entry s entries
      let s2 := save_mr r.2 mr
      multiCheck mr r.1 s2

/-- Embeds `MonoRepo::update_refs`: deliberately does nothing — reference
movement on a subpath is deferred to the merge-request flow. -/
def update_refs (_repo : MonoRepo) (s : Storage) : Storage := s

/-- Modelled from the spec (§4.5.1): a subpath push runs `unpack` on the
decoded entries and then `update_refs`. -/
def push (repo : MonoRepo) (entries : List Entry) (s : Storage) : Option Storage :=
  (unpack repo entries s).map (update_refs repo)

/-- Modelled from the spec: the canonical default branch name constant
`MEGA_BRANCH_NAME` (`common`, not part of the embedded sources). -/
def MEGA_BRANCH_NAME : String := "refs/heads/main"

/-- An advertised reference (`Refs` in `venus`): the fields the monorepo
handler populates. -/
structure Refs where
  ref_name : String
  ref_hash : String
  default_branch : Bool
deriving DecidableEq, Repr

/-- Modelled from the spec: converting a stored reference row into an
advertised ref (the `into()` on the storage model) uses the canonical
default branch name and the stored commit hash. -/
def refs_of_mega (r : MegaRef) : Refs :=
  ⟨MEGA_BRANCH_NAME, r.ref_commit_hash, true⟩

/-- Modelled from the spec (§4.4.1): `check_head_hash` wraps the ref list
into the advertisement; the advertised hashes are the given ones. -/
def check_head_hash (refs : List Refs) : List Refs := refs

/-- Modelled from the spec: `Commit::from_tree_id` (in `venus`, not part
of the embedded sources) builds a commit over the given tree with the
given parents and message whose id is determined by its content. -/
def Commit.from_tree_id (tree_id : String) (parents : List String) (message : String) : Commit :=
  ⟨"commit:" ++ tree_id ++ ":" ++ String.intercalate "," parents ++ ":" ++ message,
    tree_id, parents, message⟩

/-- Path components of a slash-rooted subpath (Rust `PathBuf::components`
minus `RootDir`): the nonempty segments between slashes. -/
def componentsGo : List Char → List Char → List String
  | [], cur => if cur.isEmpty then [] else [⟨cur.reverse⟩]
  | c :: cs, cur =>
    if c = '/' then
      if cur.isEmpty then componentsGo cs [] else ⟨cur.reverse⟩ :: componentsGo cs []
    else componentsGo cs (c :: cur)

def pathComponents (p : String) : List String := componentsGo p.toList []

/-- Result of the component walk in `head_hash`: the subtree when every
component resolves, `missing` when a name is absent (empty advertisement),
`panic` when a named child is not a stored tree (the `[0]` index panic). -/
inductive WalkRes
  | found (t : Tree)
  | missing
  | panic
deriving DecidableEq, Repr

/-- The component loop of `head_hash`: look the component name up in the
current tree's items and descend into the referenced tree. -/
def walk (s : Storage) : List String → Tree → WalkRes
  | [], t => .found t
  | comp :: rest, t =>
    match t.tree_items.find? (fun x => x.name == comp) with
    | none => .missing
    | some item =>
      match get_tree_by_hash s item.id with
      | none => .panic
      | some t' => walk s rest t'

/-- Embeds `MonoRepo::head_hash`: return the stored ref for the subpath when
present; otherwise walk the root commit's tree along the subpath
components and synthesize, persist and advertise a parentless commit for
the walked subtree.  `none` models the `unwrap` panics (no root ref,
missing root commit or trees). -/
def head_hash (repo : MonoRepo) (s : Storage) : Option (List Refs × Storage) :=
  match get_ref s repo.path with
  | some r => some (check_head_hash [refs_of_mega r], s)
  | none =>
    match get_ref s "/" with
    | none => none
    | some root =>
      match get_commit_by_hash s root.ref_commit_hash with
      | none => none
      | some commit =>
        match get_tree_by_hash s commit.tree_id with
        | none => none
        | some t0 =>
          match walk s (pathComponents repo.path) t0 with
          | .missing => some (check_head_hash [], s)
          | .panic => none
          | .found tree =>
            let c := Commit.from_tree_id tree.id []
              "This commit was generated by mega for maintain refs"
            let s1 := save_ref s repo.path c.id c.tree_id
            let s2 := save_mega_commits s1 [c]
            some (check_head_hash [⟨MEGA_BRANCH_NAME, c.id, true⟩], s2)

end Ceres

namespace Ceres

/-- One parent sweep of the frontier loop in `incremental_pack`: for each
parent id of the popped commit, when it is neither in `have` nor already
among the selected commit ids, fetch it (`none` models the `unwrap` panic
on a missing parent), append it to the selected commits and push it on
the traversal stack. -/
def processParents (s : Storage) (hv : List String) :
    List String → List Commit → List Commit → Option (List Commit × List Commit)
  | [], wc, tl => some (wc, tl)
  | p :: ps, wc, tl =>
    if p ∈ hv ∨ p ∈ wc.map (fun c => c.id) then processParents s hv ps wc tl
    else
      match get_commit_by_hash s p with
      | none => none
      | some pc => processParents s hv ps (wc ++ [pc]) (pc :: tl)

/-- The `while let Some(temp) = traversal_list.pop()` loop of
`incremental_pack` (the Rust `Vec` stack is modelled with the list head
as the stack top), with explicit fuel; `none` when the fuel runs out or
a parent lookup panics. -/
def frontierLoop (s : Storage) (hv : List String) :
    Nat → List Commit → List Commit → Option (List Commit)
  | 0, _, _ => none
  | _ + 1, wc, [] => some wc
  | fuel + 1, wc, temp :: rest =>
    match processParents s hv temp.parent_commit_ids wc rest with
    | none => none
    | some (wc', tl') => frontierLoop s hv fuel wc' tl'

/-- The seed commits: `get_commits_by_hashes(&repo, want)`. -/
def seedCommits (s : Storage) (want : List String) : List Commit :=
  get_commits_by_hashes s want

/-- Fuel sufficient for any terminating frontier run over this store. -/
def frontierFuel (s : Storage) (want : List String) : Nat :=
  (seedCommits s want).length + s.commits.length + 1

/-- Insert a hash into a membership-set represented as a list. -/
def insertNew (x : String) (e : List String) : List String :=
  if x ∈ e then e else x :: e

/-- Split a tree's items for the object walks: file-like entries
contribute their blob hashes, directory entries their subtrees
(`none` on a missing subtree — a missing object is fatal, §7);
submodule entries contribute nothing. -/
def collectItems (s : Storage) : List TreeItem → Option (List String × List Tree)
  | [] => some ([], [])
  | it :: rest =>
    match collectItems s rest with
    | none => none
    | some (bl, subs) =>
      match it.mode with
      | .Commit => some (bl, subs)
      | .Tree =>
        match get_tree_by_hash s it.id with
        | none => none
        | some t => some (bl, t :: subs)
      | _ => some (it.id :: bl, subs)

/-- Modelled from the spec (§4.4.2 step 3, `add_to_exist_objs`): add a
tree's hash and recursively every subtree and blob hash to the
existing-objects set. -/
def expandGo (s : Storage) : Nat → List Tree → List String → Option (List String)
  | _, [], e => some e
  | 0, _ :: _, _ => none
  | fuel + 1, t :: ws, e =>
    match collectItems s t.tree_items with
    | none => none
    | some (bl, subs) =>
      expandGo s fuel (subs ++ ws) (bl.foldl (fun acc x => insertNew x acc) (insertNew t.id e))

/-- Total item count of the tree table; used only to size fuel. -/
def sumItems (s : Storage) : Nat :=
  s.trees.foldl (fun a t => a + t.tree_items.length) 0

/-- Fuel sufficient for any terminating tree walk over this store. -/
def travFuel (s : Storage) : Nat :=
  (s.trees.length + 1) * (sumItems s + 1) + 1

def add_to_exist_objs (s : Storage) (t : Tree) (e : List String) : Option (List String) :=
  expandGo s (travFuel s) [t] e

/-- Modelled from the spec (§4.4.2 step 4, §4.4.3, `traverse_want_trees`
item walk): visit items in order, depth-first pre-order; a tree or blob
hash already in the set is skipped, otherwise it is emitted and added to
the (call-local) set; submodule entries emit nothing. -/
def travGo (s : Storage) : Nat → List TreeItem → List String → Option (List Entry × List String)
  | _, [], e => some ([], e)
  | 0, _ :: _, _ => none
  | fuel + 1, it :: rest, e =>
    match it.mode with
    | .Commit => travGo s fuel rest e
    | .Tree =>
      if it.id ∈ e then travGo s fuel rest e
      else
        match get_tree_by_hash s it.id with
        | none => none
        | some t =>
          match travGo s fuel (t.tree_items ++ rest) (it.id :: e) with
          | none => none
          | some (em, e') => some (⟨ObjectType.Tree, it.id⟩ :: em, e')
    | _ =>
      if it.id ∈ e then travGo s fuel rest e
      else
        match travGo s fuel rest (it.id :: e) with
        | none => none
        | some (em, e') => some (⟨ObjectType.Blob, it.id⟩ :: em, e')

/-- Modelled from the spec (§4.4.2 step 4, `traverse_want_trees`): emit
the want commit's tree itself and every descendant subtree/blob not
already in the existing-objects set; the set updates are local to the
call (the handler passes the set by shared reference). -/
def traverse_want_trees (s : Storage) (t : Tree) (e : List String) :
    Option (List Entry × List String) :=
  if t.id ∈ e then some ([], e)
  else
    match travGo s (travFuel s) t.tree_items (t.id :: e) with
    | none => none
    | some (em, e') => some (⟨ObjectType.Tree, t.id⟩ :: em, e')

/-- Seeding of `exist_objs` inside the per-commit loop: for each parent
of the want commit that the client has, fetch the parent commit, fetch
its tree (the `[0]` index panic on a missing tree is `none`) and add its
closure to the set. -/
def seedHaveList (s : Storage) : List Commit → List String → Option (List String)
  | [], e => some e
  | hc :: hcs, e =>
    match get_tree_by_hash s hc.tree_id with
    | none => none
    | some t =>
      match add_to_exist_objs s t e with
      | none => none
      | some e' => seedHaveList s hcs e'

/-- The per-commit emission loop of `incremental_pack`: seed the
existing-objects set from the commit's `have` parents, traverse the want
tree emitting new objects, then emit the commit entry itself; the
traversal's local set updates do not flow back into `exist_objs`. -/
def emitLoop (s : Storage) (hv : List String) :
    List Commit → List String → List Entry → Option (List Entry)
  | [], _, out => some out
  | c :: cs, exist_objs, out =>
    let have_commits :=
      get_commits_by_hashes s (c.parent_commit_ids.filter (fun p => p ∈ hv))
    match seedHaveList s have_commits exist_objs with
    | none => none
    | some e1 =>
      match get_tree_by_hash s c.tree_id with
      | none => none
      | some t =>
        match traverse_want_trees s t e1 with
        | none => none
        | some (em, _) => emitLoop s hv cs e1 (out ++ em ++ [⟨ObjectType.Commit, c.id⟩])

/-- Embeds `MonoRepo::incremental_pack` as the sequence of entries streamed to
the encoder: expand the want frontier through parents stopping at `have`
commits, then per selected commit emit its tree closure (minus the
incrementally seeded existing objects) followed by the commit. -/
def incremental_pack (s : Storage) (want hv : List String) : Option (List Entry) :=
  match frontierLoop s hv (frontierFuel s want)
      (seedCommits s want) (seedCommits s want).reverse with
  | none => none
  | some wc => emitLoop s hv wc [] []

/-- Commits reachable from a set of commit hashes through parent edges,
stopping at commits in `hv` (never crossing into them): the declarative
characterisation of the frontier loop. -/
inductive ReachAvoid (s : Storage) (want hv : List String) : String → Prop
  | seed (h : String) : h ∈ want → (get_commit_by_hash s h).isSome →
      ReachAvoid s want hv h
  | step (cid p : String) (c : Commit) : ReachAvoid s want hv cid →
      get_commit_by_hash s cid = some c → p ∈ c.parent_commit_ids →
      p ∉ hv → (get_commit_by_hash s p).isSome →
      ReachAvoid s want hv p

/-- Plain reachability closure over parent edges (the spec's
`reachable(X)` on commits), computed with a worklist; hashes that do not
resolve are skipped. -/
def reachCommitsGo (s : Storage) : Nat → List String → List String → Option (List String)
  | _, [], acc => some acc
  | 0, _ :: _, _ => none
  | fuel + 1, h :: ws, acc =>
    if h ∈ acc then reachCommitsGo s fuel ws acc
    else
      match get_commit_by_hash s h with
      | none => reachCommitsGo s fuel ws acc
      | some c => reachCommitsGo s fuel (c.parent_commit_ids ++ ws) (h :: acc)

/-- Fuel sufficient for any terminating reachability run over this
store. -/
def reachFuel (s : Storage) (roots : List String) : Nat :=
  s.commits.foldl (fun a c => a + c.parent_commit_ids.length) 0 +
    s.commits.length + roots.length + 1

def reachObjsGo (s : Storage) : List String → List String → Option (List String)
  | [], acc => some acc
  | h :: hs, acc =>
    match get_commit_by_hash s h with
    | none => none
    | some c =>
      match get_tree_by_hash s c.tree_id with
      | none => none
      | some t =>
        match expandGo s (travFuel s) [t] (insertNew h acc) with
        | none => none
        | some acc' => reachObjsGo s hs acc'

/-- The spec's `reachable(X)` as an object set: every reachable commit
hash together with the full subtree/blob closure of its tree. -/
def reachableObjects (s : Storage) (roots : List String) : Option (List String) :=
  match reachCommitsGo s (reachFuel s roots) roots [] with
  | none => none
  | some rc => reachObjsGo s rc []

/-- Equality of hash lists as sets. -/
def eqAsSets (a b : List String) : Prop :=
  (∀ x ∈ a, x ∈ b) ∧ (∀ x ∈ b, x ∈ a)

instance (a b : List String) : Decidable (eqAsSets a b) := by
  unfold eqAsSets
  infer_instance

end Ceres

namespace Ceres

/-- Empty store. -/
def emptyStorage : Storage := ⟨[], [], [], [], [], []⟩

/-- Diamond store for the incremental-pack scenarios: root commit `p`
with tree `tp`, two children `a` (tree `ta`) and `c` (tree `tc`), each
tree holding one blob. -/
def diamondStore : Storage :=
  { emptyStorage with
    commits := [⟨"p", "tp", [], ""⟩, ⟨"a", "ta", ["p"], ""⟩, ⟨"c", "tc", ["p"], ""⟩],
    trees := [⟨"tp", [⟨SMode.Blob, "f", "bp"⟩]⟩,
              ⟨"ta", [⟨SMode.Blob, "f", "ba"⟩]⟩,
              ⟨"tc", [⟨SMode.Blob, "f", "bc"⟩]⟩] }

end Ceres

namespace Ceres

/-- A push handler value targeting subpath `/p`. -/
def repoP (f t : Option String) : MonoRepo := ⟨"/p", f, t⟩

/-- A pack holding two commits (multi-commit push). -/
def twoCommitPack : List Entry :=
  [⟨ObjectType.Commit, "c1c1c1c1"⟩, ⟨ObjectType.Commit, "c2c2c2c2"⟩]

/-- A pack holding one commit and a blob. -/
def oneCommitPack : List Entry :=
  [⟨ObjectType.Commit, "c1c1c1c1"⟩, ⟨ObjectType.Blob, "b1b1b1b1"⟩]

/-- A store holding one open merge request on `/p`. -/
def mrStore (f t : String) : Storage :=
  { emptyStorage with mrs := [⟨7, "/p", f, t, MergeStatus.Open⟩] }

end Ceres

namespace Ceres

/-- A store with a root reference, root commit `a0` over tree `t0`,
which has a subtree `lib` (`t1`) holding one blob. -/
def rootStore : Storage :=
  { emptyStorage with
    commits := [⟨"a0", "t0", [], ""⟩],
    trees := [⟨"t0", [⟨SMode.Tree, "lib", "t1"⟩]⟩, ⟨"t1", [⟨SMode.Blob, "f", "b1"⟩]⟩],
    refs := [⟨"/", "a0", "t0"⟩] }

/-- Fetch handler for the subpath `/lib` (no push hashes). -/
def repoLib : MonoRepo := ⟨"/lib", none, none⟩

end Ceres

namespace GitObj

/-- Wire bytes of one tree entry: `mode SP name NUL hash-bytes`. -/
def entryBytes (mode nm h : List Nat) : List Nat :=
  mode ++ [32] ++ nm ++ [0] ++ h

/-- Concatenated wire bytes of a sequence of `(mode, name, hash)` entry
triples. -/
def encodeEntries : List (List Nat × List Nat × List Nat) → List Nat
  | [] => []
  | e :: rest => entryBytes e.1 e.2.1 e.2.2 ++ encodeEntries rest

/-- A well-formed entry triple: a recognised mode token, a NUL-free valid
UTF-8 name, and a 20-byte hash. -/
def WFEntry (e : List Nat × List Nat × List Nat) : Prop :=
  (tree_item_type_from e.1).isSome = true ∧ 0 ∉ e.2.1 ∧
    utf8Valid e.2.1 = true ∧ e.2.2.length = 20

instance (e : List Nat × List Nat × List Nat) : Decidable (WFEntry e) := by
  unfold WFEntry
  infer_instance

/-- The `TreeItem` an entry triple parses to. -/
def itemOf (e : List Nat × List Nat × List Nat) : TreeItem :=
  ⟨(tree_item_type_from e.1).getD .Blob, Hash.from_bytes e.2.2, e.2.1⟩

/-- Concrete group-writable entry bytes: mode token `100664`, name `a`,
a 20-byte id. -/
def bs664 : List Nat := tok100664 ++ [32, 97, 0] ++ List.replicate 20 1

/-- The item `bs664` parses to: the mode is normalised to `Blob`. -/
def item664 : TreeItem := ⟨.Blob, ⟨List.replicate 20 1⟩, [97]⟩

/-- A tree payload holding two entries that share the name `a`. -/
def dupPayload : List Nat :=
  (tok100644 ++ [32, 97, 0] ++ List.replicate 20 1) ++
    (tok100644 ++ [32, 97, 0] ++ List.replicate 20 2)

/-- The two items of `dupPayload`. -/
def dupItems : List TreeItem :=
  [⟨.Blob, ⟨List.replicate 20 1⟩, [97]⟩, ⟨.Blob, ⟨List.replicate 20 2⟩, [97]⟩]

/-- A signature line `author A <e> 123` with no timezone field after the
timestamp. -/
def noTzData : List Nat := authorBytes ++ [32, 65, 32, 60, 101, 62, 32, 49, 50, 51]

end GitObj

namespace Ceres

/-- Number of commit entries in a pack. -/
def commitCount (es : List Entry) : Nat :=
  (es.filter (fun e => e.obj_type == ObjectType.Commit)).length

/-- Frontier invariant: every selected commit is its own stored lookup
and is reachable from `want` avoiding `hv`. -/
def WcConsistent (s : Storage) (want hv : List String) (wc : List Commit) : Prop :=
  ∀ c ∈ wc, get_commit_by_hash s c.id = some c ∧ ReachAvoid s want hv c.id

/-- Frontier invariant: every resolvable `want` hash is already
selected. -/
def SeedCovered (s : Storage) (want : List String) (wc : List Commit) : Prop :=
  ∀ h ∈ want, (get_commit_by_hash s h).isSome = true → ∃ c ∈ wc, c.id = h

/-- Frontier invariant: the traversal stack holds only selected
commits. -/
def TlSub (wc tl : List Commit) : Prop := ∀ c ∈ tl, c ∈ wc

/-- Frontier invariant: every selected commit is still pending on the
stack or has all of its non-`have` parents selected. -/
def ClosedOrPending (s : Storage) (hv : List String) (wc tl : List Commit) : Prop :=
  ∀ c ∈ wc, c ∈ tl ∨ ∀ p ∈ c.parent_commit_ids, p ∉ hv → ∃ c' ∈ wc, c'.id = p

/-- The entry sequence `incremental_pack` emits on the diamond store for
`want = [c]`, `have = [a]`. -/
def c1Emitted : List Entry :=
  [⟨ObjectType.Tree, "tc"⟩, ⟨ObjectType.Blob, "bc"⟩, ⟨ObjectType.Commit, "c"⟩,
   ⟨ObjectType.Tree, "tp"⟩, ⟨ObjectType.Blob, "bp"⟩, ⟨ObjectType.Commit, "p"⟩]

/-- Embeds `reachable([c])` on the diamond store, as an object hash list. -/
def c1RW : List String := ["bc", "tc", "c", "bp", "tp", "p"]

/-- Embeds `reachable([a])` on the diamond store, as an object hash list. -/
def c1RH : List String := ["ba", "ta", "a", "bp", "tp", "p"]

/-- The store a fresh multi-commit push to `/p` produces. -/
def c2Out : Storage :=
  { emptyStorage with
    mrs := [⟨0, "/p", "ffffff00", "222222bb", MergeStatus.Open⟩],
    comments := [⟨0, 0, some "Mega closed MR due to multi commit detected"⟩],
    entries := twoCommitPack }

/-- The store a multi-commit force-update push to `/p` produces. -/
def c4Out : Storage :=
  { emptyStorage with
    mrs := [⟨7, "/p", "ffffff00", "222222bb", MergeStatus.Open⟩],
    comments := [⟨7, 0, some "Mega updated the mr automatic from 111111 to 222222"⟩,
                 ⟨7, 0, some "Mega closed MR due to multi commit detected"⟩],
    entries := twoCommitPack }

end Ceres

namespace Ceres

/-- The synthetic advertisement the first `head_hash` call for `/lib`
produces on `rootStore`. -/
def libRef : Refs :=
  ⟨MEGA_BRANCH_NAME, "commit:t1::This commit was generated by mega for maintain refs", true⟩

/-- The store after that first call: the synthetic commit and the `/lib`
reference are persisted. -/
def libStore1 : Storage :=
  { rootStore with
    commits := rootStore.commits ++
      [⟨"commit:t1::This commit was generated by mega for maintain refs", "t1", [],
        "This commit was generated by mega for maintain refs"⟩],
    refs := rootStore.refs ++
      [⟨"/lib", "commit:t1::This commit was generated by mega for maintain refs", "t1"⟩] }

end Ceres

namespace GitObj

/-- The entry triples of `dupPayload`: two well-formed entries sharing
the name `a`. -/
def dupEntries : List (List Nat × List Nat × List Nat) :=
  [(tok100644, [97], List.replicate 20 1), (tok100644, [97], List.replicate 20 2)]

end GitObj

namespace GitObj

theorem find_byte_eq_none (b : Nat) (l : List Nat) (h : b ∉ l) : find_byte b l = none := by
  induction l with
  | nil => rfl
  | cons x xs ih =>
    simp only [find_byte]
    rw [if_neg (by simp at h; omega), ih (by simp at h; exact h.2)]
    rfl

theorem find_byte_append (b : Nat) (a l : List Nat) (h : b ∉ a) :
    find_byte b (a ++ l) = (find_byte b l).map (· + a.length) := by
  induction a with
  | nil => simp
  | cons x xs ih =>
    simp only [List.cons_append, find_byte, List.append_eq]
    rw [if_neg (by simp at h; omega), ih (by simp at h; exact h.2)]
    cases find_byte b l <;> simp <;> omega

theorem find_byte_append_cons (b : Nat) (a l : List Nat) (h : b ∉ a) :
    find_byte b (a ++ b :: l) = some a.length := by
  rw [find_byte_append b a _ h]
  simp [find_byte]

theorem splitn2_append (sep : Nat) (a b : List Nat) (h : sep ∉ a) :
    splitn2 sep (a ++ sep :: b) = (a, some b) := by
  induction a with
  | nil => simp [splitn2]
  | cons x xs ih =>
    simp only [List.cons_append, splitn2, List.append_eq]
    rw [if_neg (by simp at h; omega), ih (by simp at h; exact h.2)]

theorem mode_token_no_sep (mode : List Nat) (m : TreeItemMode)
    (hm : tree_item_type_from mode = some m) : 32 ∉ mode ∧ 0 ∉ mode := by
  unfold tree_item_type_from at hm
  split_ifs at hm with h1 h2 h3 h4 h5 h6 h7 <;> subst_vars <;> decide

theorem parse_entryBytes (mode nm h : List Nat) (m : TreeItemMode)
    (hm : tree_item_type_from mode = some m) (hnm : 0 ∉ nm) (hv : utf8Valid nm = true) :
    TreeItem.new_from_bytes (entryBytes mode nm h) = some ⟨m, Hash.from_bytes h, nm⟩ := by
  obtain ⟨h32, h0⟩ := mode_token_no_sep mode m hm
  have hb : entryBytes mode nm h = mode ++ 32 :: (nm ++ 0 :: h) := by
    simp [entryBytes]
  rw [TreeItem.new_from_bytes, hb, splitn2_append 32 mode _ h32]
  simp only
  rw [splitn2_append 0 nm h hnm]
  simp only [hm, string_from_utf8, hv, if_pos]

/-- C6: tree entries whose mode token is one of the five canonical ones
round-trip byte-exactly through parse then serialize. -/
theorem tree_entry_roundtrip_canonical (mode nm h : List Nat)
    (hmode : mode = tok40000 ∨ mode = tok100644 ∨ mode = tok100755 ∨
      mode = tok120000 ∨ mode = tok160000)
    (hnm : 0 ∉ nm) (hv : utf8Valid nm = true) :
    ∃ it, TreeItem.new_from_bytes (entryBytes mode nm h) = some it ∧
      TreeItem.to_bytes it = entryBytes mode nm h := by
  rcases hmode with h1 | h1 | h1 | h1 | h1 <;> subst h1
  · exact ⟨_, parse_entryBytes _ nm h .Tree rfl hnm hv, rfl⟩
  · exact ⟨_, parse_entryBytes _ nm h .Blob rfl hnm hv, rfl⟩
  · exact ⟨_, parse_entryBytes _ nm h .BlobExecutable rfl hnm hv, rfl⟩
  · exact ⟨_, parse_entryBytes _ nm h .Link rfl hnm hv, rfl⟩
  · exact ⟨_, parse_entryBytes _ nm h .Commit rfl hnm hv, rfl⟩

theorem tree_entry_roundtrip_canonical_witness :
    (0 ∉ ([97] : List Nat)) ∧ utf8Valid [97] = true ∧
      (∃ it, TreeItem.new_from_bytes (entryBytes tok100644 [97] (List.replicate 20 1)) = some it ∧
        TreeItem.to_bytes it = entryBytes tok100644 [97] (List.replicate 20 1)) :=
  ⟨by decide, by decide,
    tree_entry_roundtrip_canonical tok100644 [97] (List.replicate 20 1)
      (Or.inr (Or.inl rfl)) (by decide) (by decide)⟩

/-- C6 counterexample: the group-writable mode token `100664` parses (as
a plain blob) but does not serialize back to the input bytes. -/
theorem tree_entry_664_not_roundtrip :
    TreeItem.new_from_bytes bs664 = some item664 ∧
      TreeItem.to_bytes item664 ≠ bs664 := by
  constructor
  · decide
  · decide

end GitObj

namespace GitObj

theorem entryBytes_length (m nm h : List Nat) :
    (entryBytes m nm h).length = m.length + nm.length + h.length + 2 := by
  simp [entryBytes]
  omega

theorem encodeEntries_length_ge (es : List (List Nat × List Nat × List Nat)) :
    es.length ≤ (encodeEntries es).length := by
  induction es with
  | nil => simp [encodeEntries]
  | cons e rest ih =>
    simp only [encodeEntries, List.length_append, List.length_cons, entryBytes_length]
    omega

theorem wf_entry_parse (e : List Nat × List Nat × List Nat) (hwf : WFEntry e) :
    TreeItem.new_from_bytes (entryBytes e.1 e.2.1 e.2.2) = some (itemOf e) := by
  obtain ⟨h1, h2, h3, h4⟩ := hwf
  obtain ⟨m, hm⟩ := Option.isSome_iff_exists.mp h1
  rw [parse_entryBytes e.1 e.2.1 e.2.2 m hm h2 h3]
  simp [itemOf, hm]

theorem treeItemsGo_encode (es : List (List Nat × List Nat × List Nat)) :
    ∀ fuel pre meta, (∀ e ∈ es, WFEntry e) → es.length < fuel →
    meta.data = pre ++ encodeEntries es → meta.size = meta.data.length →
    treeItemsGo meta fuel pre.length = some (es.map itemOf) := by
  induction es with
  | nil =>
    intro fuel pre meta _ hfuel hdata hsize
    match fuel, hfuel with
    | f + 1, _ =>
      have hns : ¬ pre.length < meta.size := by
        simp [hsize, hdata, encodeEntries]
      simp [treeItemsGo, hns]
  | cons e rest ih =>
    intro fuel pre meta hwf hfuel hdata hsize
    match fuel, hfuel with
    | f + 1, hf =>
      obtain ⟨hm, hnm0, hnmv, hh20⟩ := hwf e (by simp)
      obtain ⟨m, hmm⟩ := Option.isSome_iff_exists.mp hm
      obtain ⟨hm32, hm0⟩ := mode_token_no_sep e.1 m hmm
      have hdrop : meta.data.drop pre.length =
          entryBytes e.1 e.2.1 e.2.2 ++ encodeEntries rest := by
        rw [hdata, List.drop_left' rfl]
        rfl
      have hsplit : entryBytes e.1 e.2.1 e.2.2 ++ encodeEntries rest =
          (e.1 ++ 32 :: e.2.1) ++ 0 :: (e.2.2 ++ encodeEntries rest) := by
        simp [entryBytes]
      have hno0 : (0 : Nat) ∉ e.1 ++ 32 :: e.2.1 := by
        simp only [List.mem_append, List.mem_cons]
        push_neg
        exact ⟨hm0, by omega, hnm0⟩
      have hfind : find_byte 0 (meta.data.drop pre.length) =
          some (e.1.length + e.2.1.length + 1) := by
        rw [hdrop, hsplit, find_byte_append_cons 0 _ _ hno0]
        simp
        omega
      have hlt : pre.length < meta.size := by
        rw [hsize, hdata]
        simp only [List.length_append, entryBytes_length, encodeEntries]
        omega
      have hbound : pre.length + (e.1.length + e.2.1.length + 1) + 21 ≤ meta.data.length := by
        rw [hdata]
        simp only [List.length_append, encodeEntries, entryBytes_length]
        omega
      have htake : (meta.data.drop pre.length).take (e.1.length + e.2.1.length + 1 + 21) =
          entryBytes e.1 e.2.1 e.2.2 := by
        rw [hdrop]
        exact List.take_left' (by rw [entryBytes_length]; omega)
      have hrec : treeItemsGo meta f (pre.length + (e.1.length + e.2.1.length + 1) + 21) =
          some (rest.map itemOf) := by
        have hlen : pre.length + (e.1.length + e.2.1.length + 1) + 21 =
            (pre ++ entryBytes e.1 e.2.1 e.2.2).length := by
          simp only [List.length_append, entryBytes_length]
          omega
        rw [hlen]
        exact ih f (pre ++ entryBytes e.1 e.2.1 e.2.2) meta
          (fun x hx => hwf x (by simp [hx]))
          (by simp only [List.length_cons] at hf; omega)
          (by rw [hdata]; simp [encodeEntries])
          hsize
      simp only [treeItemsGo, hfind, if_pos hlt, if_pos hbound, htake,
        wf_entry_parse e ⟨hm, hnm0, hnmv, hh20⟩, hrec, List.map_cons]

/-- C8: `Tree::new_from_meta` performs no duplicate-name check — any
concatenation of well-formed entries parses into the tree holding
exactly those entries, whatever their names. -/
theorem tree_parse_no_duplicate_check (es : List (List Nat × List Nat × List Nat))
    (hwf : ∀ e ∈ es, WFEntry e) :
    Tree.new_from_meta ⟨(encodeEntries es).length, encodeEntries es⟩ =
      some ⟨⟨(encodeEntries es).length, encodeEntries es⟩, es.map itemOf⟩ := by
  have hfuel : es.length < (encodeEntries es).length + 1 :=
    Nat.lt_succ_of_le (encodeEntries_length_ge es)
  have h := treeItemsGo_encode es ((encodeEntries es).length + 1) []
    ⟨(encodeEntries es).length, encodeEntries es⟩ hwf hfuel rfl rfl
  unfold Tree.new_from_meta treeItemsLoop
  simp only [List.length_nil] at h
  simp only [show (⟨(encodeEntries es).length, encodeEntries es⟩ : Meta).size + 1 - 0 =
    (encodeEntries es).length + 1 from rfl, h]

theorem tree_parse_no_duplicate_check_witness :
    (∀ e ∈ dupEntries, WFEntry e) ∧
      Tree.new_from_meta ⟨(encodeEntries dupEntries).length, encodeEntries dupEntries⟩ =
        some ⟨⟨(encodeEntries dupEntries).length, encodeEntries dupEntries⟩,
          dupEntries.map itemOf⟩ :=
  ⟨by decide, tree_parse_no_duplicate_check dupEntries (by decide)⟩

/-- C8 counterexample: a payload with two same-named entries parses
successfully into a tree value (no malformed-object failure). -/
theorem tree_parse_duplicate_names_succeeds :
    Tree.new_from_meta ⟨dupPayload.length, dupPayload⟩ =
      some ⟨⟨dupPayload.length, dupPayload⟩, dupItems⟩ ∧
    dupItems.map (fun it => it.name) = [[97], [97]] := by
  constructor
  · decide
  · decide

end GitObj

namespace GitObj

/-- C9: a signature line `author name <email> timestamp` with no
timezone field after the timestamp does not parse — the parser
unconditionally looks for a space after the timestamp and panics,
rather than defaulting the timezone. -/
theorem signature_missing_timezone_fails (nm em ts : List Nat)
    (h60n : 60 ∉ nm) (h62n : 62 ∉ nm) (h62e : 62 ∉ em) (h32t : 32 ∉ ts)
    (hvn : utf8Valid nm = true) (hve : utf8Valid em = true) :
    Signature.new_from_data
      (authorBytes ++ [32] ++ nm ++ [32, 60] ++ em ++ [62, 32] ++ ts) = none := by
  set data := authorBytes ++ [32] ++ nm ++ [32, 60] ++ em ++ [62, 32] ++ ts with hdata
  have hfind32 : find_byte 32 data = some 6 := by
    rw [hdata, show authorBytes ++ [32] ++ nm ++ [32, 60] ++ em ++ [62, 32] ++ ts =
      authorBytes ++ 32 :: (nm ++ [32, 60] ++ em ++ [62, 32] ++ ts) by simp,
      find_byte_append_cons 32 authorBytes _ (by decide)]
    decide
  have htake6 : data.take 6 = authorBytes := by
    rw [hdata, show authorBytes ++ [32] ++ nm ++ [32, 60] ++ em ++ [62, 32] ++ ts =
      authorBytes ++ ([32] ++ nm ++ [32, 60] ++ em ++ [62, 32] ++ ts) by simp]
    exact List.take_left' (by decide)
  have hfind60 : find_byte 60 data = some (nm.length + 8) := by
    rw [hdata, show authorBytes ++ [32] ++ nm ++ [32, 60] ++ em ++ [62, 32] ++ ts =
      (authorBytes ++ 32 :: nm ++ [32]) ++ 60 :: (em ++ [62, 32] ++ ts) by simp,
      find_byte_append_cons 60 _ _ (by
        simp only [List.mem_append, List.mem_cons]
        push_neg
        refine ⟨⟨by decide, by omega, h60n⟩, by decide⟩)]
    simp [authorBytes]
  have hfind62 : find_byte 62 data = some (nm.length + em.length + 9) := by
    rw [hdata, show authorBytes ++ [32] ++ nm ++ [32, 60] ++ em ++ [62, 32] ++ ts =
      (authorBytes ++ 32 :: nm ++ [32, 60] ++ em) ++ 62 :: (32 :: ts) by simp,
      find_byte_append_cons 62 _ _ (by
        simp only [List.mem_append, List.mem_cons]
        push_neg
        refine ⟨⟨⟨by decide, by omega, h62n⟩, by decide⟩, h62e⟩)]
    simp [authorBytes]
    omega
  have hlen : data.length = nm.length + em.length + ts.length + 11 := by
    rw [hdata]
    simp [authorBytes]
    omega
  have hslice1 : slice data 7 (nm.length + 8 - 1) = some nm := by
    unfold slice
    rw [if_pos (by omega)]
    rw [hdata, show authorBytes ++ [32] ++ nm ++ [32, 60] ++ em ++ [62, 32] ++ ts =
      (authorBytes ++ [32]) ++ (nm ++ ([32, 60] ++ em ++ [62, 32] ++ ts)) by simp,
      List.drop_left' (by decide)]
    rw [show nm.length + 8 - 1 - 7 = nm.length by omega]
    rw [List.take_left' rfl]
  have hslice2 : slice data (nm.length + 8 + 1) (nm.length + em.length + 9) = some em := by
    unfold slice
    rw [if_pos (by omega)]
    rw [hdata, show authorBytes ++ [32] ++ nm ++ [32, 60] ++ em ++ [62, 32] ++ ts =
      (authorBytes ++ [32] ++ nm ++ [32, 60]) ++ (em ++ ([62, 32] ++ ts)) by simp,
      List.drop_left' (by simp [authorBytes])]
    rw [show nm.length + em.length + 9 - (nm.length + 8 + 1) = em.length by omega]
    rw [List.take_left' rfl]
  have hdrop : data.drop (nm.length + em.length + 9 + 2) = ts := by
    rw [hdata, show authorBytes ++ [32] ++ nm ++ [32, 60] ++ em ++ [62, 32] ++ ts =
      (authorBytes ++ [32] ++ nm ++ [32, 60] ++ em ++ [62, 32]) ++ ts by simp,
      List.drop_left' (by simp [authorBytes]; omega)]
  have hfinal : find_byte 32 (data.drop (nm.length + em.length + 9 + 2)) = none := by
    rw [hdrop]
    exact find_byte_eq_none 32 ts h32t
  unfold Signature.new_from_data
  simp only [hfind32, htake6, hfind60, hfind62, hslice1, hslice2,
    show SignatureType.from_data authorBytes = some SignatureType.Author from by decide,
    string_from_utf8, hvn, hve, if_true, ite_true, hfinal]

theorem signature_missing_timezone_fails_witness :
    ((60 : Nat) ∉ [65]) ∧ ((32 : Nat) ∉ [49, 50, 51]) ∧
      Signature.new_from_data
        (authorBytes ++ [32] ++ [65] ++ [32, 60] ++ [101] ++ [62, 32] ++ [49, 50, 51]) = none :=
  ⟨by decide, by decide,
    signature_missing_timezone_fails [65] [101] [49, 50, 51]
      (by decide) (by decide) (by decide) (by decide) (by decide) (by decide)⟩

/-- C9 counterexample: the concrete timezone-less line `author A <e> 123`
yields a parse failure, not a signature with timezone `+0000`. -/
theorem signature_no_timezone_concrete :
    Signature.new_from_data noTzData = none := by
  decide

end GitObj

namespace Ceres

@[simp] theorem refs_add_mr_comment (s : Storage) (i a : Nat) (t : Option String) :
    (add_mr_comment s i a t).refs = s.refs := rfl

@[simp] theorem refs_update_mr (s : Storage) (mr : MergeRequest) :
    (update_mr s mr).refs = s.refs := rfl

@[simp] theorem refs_save_mr (s : Storage) (mr : MergeRequest) :
    (save_mr s mr).refs = s.refs := rfl

@[simp] theorem refs_save_entry_op (s : Storage) (es : List Entry) :
    (save_entry_op s es).refs = s.refs := rfl

theorem save_entry_go_spec (es : List Entry) : ∀ buf n s,
    save_entry_go s es buf n = (n + commitCount es, save_entry_op s (buf ++ es)) := by
  induction es with
  | nil =>
    intro buf n s
    simp [save_entry_go, commitCount]
  | cons e rest ih =>
    intro buf n s
    simp only [save_entry_go]
    split
    · rw [ih]
      simp only [save_entry_op, Prod.mk.injEq, commitCount, List.filter_cons,
        List.append_assoc, List.append_nil, List.nil_append, List.singleton_append,
        List.cons_append]
      constructor
      · cases hbe : (e.obj_type == ObjectType.Commit) <;> simp [hbe, commitCount] <;> omega
      · simp
    · rw [ih]
      simp only [save_entry_op, Prod.mk.injEq, commitCount, List.filter_cons,
        List.append_assoc, List.cons_append, List.singleton_append]
      constructor
      · cases hbe : (e.obj_type == ObjectType.Commit) <;> simp [hbe, commitCount] <;> omega
      · simp

theorem save_entry_spec (s : Storage) (es : List Entry) :
    save_entry s es = (commitCount es, save_entry_op s es) := by
  unfold save_entry
  rw [save_entry_go_spec]
  simp

theorem multiCheck_refs (mr : MergeRequest) (c : Nat) (st s' : Storage)
    (h : multiCheck mr c st = some s') : s'.refs = st.refs := by
  unfold multiCheck at h
  split at h
  · simp only [Option.some.injEq] at h
    subst h
    rfl
  · simp only [Option.some.injEq] at h
    subst h
    rfl

theorem get_open_mr_props (s : Storage) (p : String) (mr : MergeRequest)
    (h : get_open_mr s p = some mr) :
    mr ∈ s.mrs ∧ mr.status = MergeStatus.Open ∧ mr.path = p := by
  have h1 := List.find?_some h
  have h2 := List.mem_of_find?_eq_some h
  simp only [Bool.and_eq_true, beq_iff_eq] at h1
  exact ⟨h2, h1.1, h1.2⟩

theorem update_mr_self (s : Storage) (p : String) (mr : MergeRequest)
    (h : get_open_mr s p = some mr)
    (hn : (s.mrs.map (fun m => m.id)).Nodup) : update_mr s mr = s := by
  have hmem := (get_open_mr_props s p mr h).1
  unfold update_mr
  have hmap : s.mrs.map (fun m => if m.id = mr.id then mr else m) = s.mrs := by
    have : ∀ m ∈ s.mrs, (if m.id = mr.id then mr else m) = m := by
      intro m hm
      by_cases he : m.id = mr.id
      · have : m = mr := List.inj_on_of_nodup_map hn hm hmem he
        simp [he, this]
      · simp [he]
    rw [List.map_congr_left this]
    simp
  rw [hmap]

end Ceres

namespace Ceres

/-- C3: a push whose `from_hash` does not match the open merge request's
stored `from_hash` closes the merge request through the store (with the
conflict comment) and persists none of the decoded entries. -/
theorem unpack_conflict (repo : MonoRepo) (entries : List Entry) (s : Storage)
    (mr : MergeRequest) (f : String)
    (hmr : get_open_mr s repo.path = some mr)
    (hf : repo.from_hash = some f) (hne : mr.from_hash ≠ f) :
    unpack repo entries s =
      some { s with
        mrs := (s.mrs.map (fun m => if m.id = mr.id then mr.close else m)),
        comments := s.comments ++ [⟨mr.id, 0, some "Mega closed MR due to conflict"⟩] } := by
  have hgm : get_mr repo s = some (mr, true) := by
    unfold get_mr
    rw [hmr]
  unfold unpack
  rw [hgm, hf]
  simp only [if_true]
  rw [if_neg hne]
  unfold multiCheck
  simp [update_mr, add_mr_comment, MergeRequest.close]

theorem unpack_conflict_witness :
    get_open_mr (mrStore "f2f2f2f2" "111111aa") "/p" =
        some ⟨7, "/p", "f2f2f2f2", "111111aa", MergeStatus.Open⟩ ∧
      ("f2f2f2f2" : String) ≠ "ffffff00" ∧
      unpack (repoP (some "ffffff00") (some "222222bb")) oneCommitPack
          (mrStore "f2f2f2f2" "111111aa") =
        some { mrStore "f2f2f2f2" "111111aa" with
          mrs := [⟨7, "/p", "f2f2f2f2", "111111aa", MergeStatus.Closed⟩],
          comments := [⟨7, 0, some "Mega closed MR due to conflict"⟩] } := by
  refine ⟨by decide, by decide, ?_⟩
  rw [unpack_conflict (repoP (some "ffffff00") (some "222222bb")) oneCommitPack
    (mrStore "f2f2f2f2" "111111aa") ⟨7, "/p", "f2f2f2f2", "111111aa", MergeStatus.Open⟩
    "ffffff00" (by decide) rfl (by decide)]
  decide

/-- C10: a push whose `from_hash` matches the open merge request and
whose `to_hash` equals the stored one changes nothing: no entries are
persisted, no comment is added, and the store (including the merge
request's fields) is exactly as before. -/
theorem unpack_same_to_noop (repo : MonoRepo) (entries : List Entry) (s : Storage)
    (mr : MergeRequest) (f t : String)
    (hmr : get_open_mr s repo.path = some mr)
    (hf : repo.from_hash = some f) (hmf : mr.from_hash = f)
    (ht : repo.to_hash = some t) (hmt : mr.to_hash = t)
    (hn : (s.mrs.map (fun m => m.id)).Nodup) :
    unpack repo entries s = some s := by
  have hgm : get_mr repo s = some (mr, true) := by
    unfold get_mr
    rw [hmr]
  unfold unpack
  rw [hgm, hf]
  simp only [if_true]
  rw [if_pos hmf, ht]
  simp only [hmt, ne_eq, not_true_eq_false, if_false]
  unfold multiCheck
  simp [update_mr_self s repo.path mr hmr hn]

theorem unpack_same_to_noop_witness :
    get_open_mr (mrStore "ffffff00" "111111aa") "/p" =
        some ⟨7, "/p", "ffffff00", "111111aa", MergeStatus.Open⟩ ∧
      unpack (repoP (some "ffffff00") (some "111111aa")) oneCommitPack
          (mrStore "ffffff00" "111111aa") = some (mrStore "ffffff00" "111111aa") :=
  ⟨by decide,
    unpack_same_to_noop (repoP (some "ffffff00") (some "111111aa")) oneCommitPack
      (mrStore "ffffff00" "111111aa") ⟨7, "/p", "ffffff00", "111111aa", MergeStatus.Open⟩
      "ffffff00" "111111aa" (by decide) rfl rfl rfl rfl (by decide)⟩

end Ceres

namespace Ceres

theorem unpack_force_update_run (repo : MonoRepo) (entries : List Entry) (s : Storage)
    (mr : MergeRequest) (f t : String)
    (hmr : get_open_mr s repo.path = some mr)
    (hf : repo.from_hash = some f) (hmf : mr.from_hash = f)
    (ht : repo.to_hash = some t) (hmt : mr.to_hash ≠ t)
    (h6a : 6 ≤ mr.to_hash.toList.length) (h6b : 6 ≤ t.toList.length) :
    unpack repo entries s =
      some { s with
        mrs := s.mrs.map (fun m => if m.id = mr.id then { mr with to_hash := t } else m),
        comments := (s.comments ++ [⟨mr.id, 0,
            some ("Mega updated the mr automatic from " ++ pre6 mr.to_hash ++ " to " ++ pre6 t)⟩]) ++
          (if commitCount entries > 1
            then [⟨mr.id, 0, some "Mega closed MR due to multi commit detected"⟩] else []),
        entries := s.entries ++ entries } := by
  have hgm : get_mr repo s = some (mr, true) := by
    unfold get_mr
    rw [hmr]
  have hcmt : comment_for_force_update mr.to_hash t =
      some ("Mega updated the mr automatic from " ++ pre6 mr.to_hash ++ " to " ++ pre6 t) := by
    unfold comment_for_force_update
    rw [if_pos ⟨h6a, h6b⟩]
  unfold unpack
  rw [hgm, hf]
  simp only [if_true]
  rw [if_pos hmf, ht]
  simp only [ne_eq]
  rw [if_pos hmt]
  rw [hcmt]
  simp only [save_entry_spec]
  unfold multiCheck
  split
  · simp only [Option.some.injEq]
    simp [add_mr_comment, update_mr, save_entry_op]
  · simp only [Option.some.injEq]
    simp_all [add_mr_comment, update_mr, save_entry_op]

/-- C4 (amended): a force-update push (matching `from_hash`, differing
`to_hash`) updates the stored `to_hash`, persists the decoded entries,
and records a comment mentioning the six-character prefixes of the
previous `to_hash` and of the new `to_hash` (not of `from_hash`); when
the pack holds more than one commit a second, multi-commit comment
follows, otherwise the force-update comment is the only new one. -/
theorem unpack_force_update (repo : MonoRepo) (entries : List Entry) (s : Storage)
    (mr : MergeRequest) (f t : String)
    (hmr : get_open_mr s repo.path = some mr)
    (hf : repo.from_hash = some f) (hmf : mr.from_hash = f)
    (ht : repo.to_hash = some t) (hmt : mr.to_hash ≠ t)
    (h6a : 6 ≤ mr.to_hash.toList.length) (h6b : 6 ≤ t.toList.length) :
    unpack repo entries s =
      some { s with
        mrs := s.mrs.map (fun m => if m.id = mr.id then { mr with to_hash := t } else m),
        comments := (s.comments ++ [⟨mr.id, 0,
            some ("Mega updated the mr automatic from " ++ pre6 mr.to_hash ++ " to " ++ pre6 t)⟩]) ++
          (if commitCount entries > 1
            then [⟨mr.id, 0, some "Mega closed MR due to multi commit detected"⟩] else []),
        entries := s.entries ++ entries } ∧
    (pre6 mr.to_hash).toList <:+:
      ("Mega updated the mr automatic from " ++ pre6 mr.to_hash ++ " to " ++ pre6 t).toList ∧
    (pre6 t).toList <:+:
      ("Mega updated the mr automatic from " ++ pre6 mr.to_hash ++ " to " ++ pre6 t).toList := by
  refine ⟨unpack_force_update_run repo entries s mr f t hmr hf hmf ht hmt h6a h6b, ?_, ?_⟩
  · exact ⟨"Mega updated the mr automatic from ".toList,
      " to ".toList ++ (pre6 t).toList, by
        simp [String.toList, String.data_append, List.append_assoc]⟩
  · exact ⟨"Mega updated the mr automatic from ".toList ++ (pre6 mr.to_hash).toList ++
      " to ".toList, [], by
        simp [String.toList, String.data_append, List.append_assoc]⟩

end Ceres

namespace Ceres

/-- C4 counterexample: on a matching-`from` push of a two-commit pack
with differing `to_hash`, two comments are recorded (not exactly one)
and none of them mentions the six-character prefix of `from_hash`. -/
theorem unpack_force_update_counterexample :
    unpack (repoP (some "ffffff00") (some "222222bb")) twoCommitPack
        (mrStore "ffffff00" "111111aa") = some c4Out ∧
      c4Out.comments.length ≠ 1 ∧
      ∀ cm ∈ c4Out.comments, ¬ ((pre6 "ffffff00").toList <:+: (cm.text.getD "").toList) := by
  refine ⟨by decide, by decide, by decide⟩

theorem unpack_force_update_witness :
    get_open_mr (mrStore "ffffff00" "111111aa") "/p" =
        some ⟨7, "/p", "ffffff00", "111111aa", MergeStatus.Open⟩ ∧
      ("111111aa" : String) ≠ "222222bb" ∧
      (unpack (repoP (some "ffffff00") (some "222222bb")) oneCommitPack
          (mrStore "ffffff00" "111111aa") =
        some { mrStore "ffffff00" "111111aa" with
          mrs := (mrStore "ffffff00" "111111aa").mrs.map (fun m =>
            if m.id = (7 : Nat) then
              { (⟨7, "/p", "ffffff00", "111111aa", MergeStatus.Open⟩ : MergeRequest) with
                to_hash := "222222bb" }
            else m),
          comments := ((mrStore "ffffff00" "111111aa").comments ++ [⟨7, 0,
              some ("Mega updated the mr automatic from " ++ pre6 "111111aa" ++ " to " ++
                pre6 "222222bb")⟩]) ++
            (if commitCount oneCommitPack > 1
              then [⟨7, 0, some "Mega closed MR due to multi commit detected"⟩] else []),
          entries := (mrStore "ffffff00" "111111aa").entries ++ oneCommitPack } ∧
        (pre6 "111111aa").toList <:+:
          ("Mega updated the mr automatic from " ++ pre6 "111111aa" ++ " to " ++
            pre6 "222222bb").toList ∧
        (pre6 "222222bb").toList <:+:
          ("Mega updated the mr automatic from " ++ pre6 "111111aa" ++ " to " ++
            pre6 "222222bb").toList) :=
  ⟨by decide, by decide,
    unpack_force_update (repoP (some "ffffff00") (some "222222bb")) oneCommitPack
      (mrStore "ffffff00" "111111aa") ⟨7, "/p", "ffffff00", "111111aa", MergeStatus.Open⟩
      "ffffff00" "222222bb" (by decide) rfl rfl rfl (by decide) (by decide) (by decide)⟩

end Ceres

namespace Ceres

/-- C2 (amended): a multi-commit push that persists entries (fresh MR,
or force-update on a matching `from_hash`) records a comment whose text
is `"Mega closed MR due to multi commit detected"` — containing
`"multi commit"`, with no hyphen — while every merge request stored for
the path remains non-Closed: the `close` after the multi-commit check is
applied only to the local value and is never written back. -/
theorem unpack_multi_commit (repo : MonoRepo) (entries : List Entry) (s : Storage)
    (hmulti : commitCount entries > 1)
    (hnc : ∀ m ∈ s.mrs, m.status ≠ MergeStatus.Closed)
    (hbranch :
      (get_open_mr s repo.path = none ∧ (∃ f, repo.from_hash = some f) ∧
        (∃ t, repo.to_hash = some t)) ∨
      (∃ mr f t, get_open_mr s repo.path = some mr ∧ repo.from_hash = some f ∧
        mr.from_hash = f ∧ repo.to_hash = some t ∧ mr.to_hash ≠ t ∧
        6 ≤ mr.to_hash.toList.length ∧ 6 ≤ t.toList.length)) :
    ∃ s', unpack repo entries s = some s' ∧
      (∃ i, s'.comments.getLast? =
        some ⟨i, 0, some "Mega closed MR due to multi commit detected"⟩) ∧
      ∀ m ∈ s'.mrs, m.status ≠ MergeStatus.Closed := by
  rcases hbranch with ⟨hnone, ⟨f, hf⟩, ⟨t, ht⟩⟩ | ⟨mr, f, t, hmr, hf, hmf, ht, hmt, h6a, h6b⟩
  · have hgm : get_mr repo s = some (⟨0, repo.path, f, t, MergeStatus.Open⟩, false) := by
      unfold get_mr
      rw [hnone, hf, ht]
    refine ⟨add_mr_comment (save_mr (save_entry_op s entries)
        ⟨0, repo.path, f, t, MergeStatus.Open⟩) 0 0
        (some "Mega closed MR due to multi commit detected"), ?_, ?_, ?_⟩
    · unfold unpack
      rw [hgm]
      simp only [Bool.false_eq_true, if_false]
      simp only [save_entry_spec]
      unfold multiCheck
      rw [if_pos hmulti]
    · refine ⟨0, ?_⟩
      simp [add_mr_comment, save_mr, save_entry_op]
    · intro m hm
      simp only [add_mr_comment, save_mr, save_entry_op, List.mem_append,
        List.mem_singleton] at hm
      rcases hm with hm | hm
      · exact hnc m hm
      · subst hm
        simp
  · have hgm : get_mr repo s = some (mr, true) := by
      unfold get_mr
      rw [hmr]
    have hrun := unpack_force_update_run repo entries s mr f t hmr hf hmf ht hmt h6a h6b
    refine ⟨_, hrun, ?_, ?_⟩
    · refine ⟨mr.id, ?_⟩
      simp only [if_pos hmulti]
      simp
    · intro m hm
      simp only [if_pos hmulti, List.mem_append, List.mem_map] at hm
      rcases hm with ⟨a, ha, hma⟩
      by_cases he : a.id = mr.id
      · rw [if_pos he] at hma
        subst hma
        have := (get_open_mr_props s repo.path mr hmr).2.1
        simp [this]
      · rw [if_neg he] at hma
        subst hma
        exact hnc a ha

end Ceres

namespace Ceres

/-- C2 counterexample: after a fresh multi-commit push the stored merge
request for the path is still Open (the close was never persisted) and
no recorded comment contains the substring `"multi-commit"` (the code
writes `"multi commit"`). -/
theorem unpack_multi_commit_counterexample :
    unpack (repoP (some "ffffff00") (some "222222bb")) twoCommitPack emptyStorage =
        some c2Out ∧
      (∀ m ∈ c2Out.mrs, m.path = "/p" → m.status ≠ MergeStatus.Closed) ∧
      ∀ cm ∈ c2Out.comments, ¬ ("multi-commit".toList <:+: (cm.text.getD "").toList) := by
  refine ⟨by decide, by decide, by decide⟩

theorem unpack_multi_commit_witness :
    commitCount twoCommitPack > 1 ∧
      (∀ m ∈ emptyStorage.mrs, m.status ≠ MergeStatus.Closed) ∧
      ∃ s', unpack (repoP (some "ffffff00") (some "222222bb")) twoCommitPack emptyStorage =
          some s' ∧
        (∃ i, s'.comments.getLast? =
          some ⟨i, 0, some "Mega closed MR due to multi commit detected"⟩) ∧
        ∀ m ∈ s'.mrs, m.status ≠ MergeStatus.Closed :=
  ⟨by decide, by decide,
    unpack_multi_commit (repoP (some "ffffff00") (some "222222bb")) twoCommitPack
      emptyStorage (by decide) (by decide)
      (Or.inl ⟨rfl, ⟨"ffffff00", rfl⟩, ⟨"222222bb", rfl⟩⟩)⟩

end Ceres

namespace Ceres

theorem unpack_preserves_refs (repo : MonoRepo) (entries : List Entry) (s s2 : Storage)
    (h : unpack repo entries s = some s2) : s2.refs = s.refs := by
  unfold unpack at h
  split at h
  · exact absurd h (by simp)
  · rename_i pr heq
    split at h
    · split at h
      · exact absurd h (by simp)
      · split at h
        · split at h
          · exact absurd h (by simp)
          · split at h
            · split at h
              · exact absurd h (by simp)
              · rw [multiCheck_refs _ _ _ _ h]
                simp [save_entry_spec]
            · rw [multiCheck_refs _ _ _ _ h]
              simp
        · rw [multiCheck_refs _ _ _ _ h]
          simp
    · rw [multiCheck_refs _ _ _ _ h]
      simp [save_entry_spec]

/-- C7: a push to a subpath never moves the stored references —
`update_refs` is a no-op in the monorepo handler and `unpack` touches no
reference row, in every branch of the merge-request state machine. -/
theorem push_preserves_subpath_ref (repo : MonoRepo) (entries : List Entry) (s s' : Storage)
    (h : push repo entries s = some s') :
    get_ref s' repo.path = get_ref s repo.path ∧ s'.refs = s.refs := by
  unfold push at h
  cases hu : unpack repo entries s with
  | none => rw [hu] at h; exact absurd h (by simp)
  | some s2 =>
    rw [hu] at h
    simp only [Option.map_some', Option.some.injEq, update_refs] at h
    subst h
    have hr := unpack_preserves_refs repo entries s s2 hu
    exact ⟨by unfold get_ref; rw [hr], hr⟩

theorem push_preserves_subpath_ref_witness :
    push (repoP (some "ffffff00") (some "222222bb")) oneCommitPack
        (mrStore "f2f2f2f2" "111111aa") =
      some { mrStore "f2f2f2f2" "111111aa" with
        mrs := [⟨7, "/p", "f2f2f2f2", "111111aa", MergeStatus.Closed⟩],
        comments := [⟨7, 0, some "Mega closed MR due to conflict"⟩] } ∧
      get_ref { mrStore "f2f2f2f2" "111111aa" with
          mrs := [⟨7, "/p", "f2f2f2f2", "111111aa", MergeStatus.Closed⟩],
          comments := [⟨7, 0, some "Mega closed MR due to conflict"⟩] } "/p" =
        get_ref (mrStore "f2f2f2f2" "111111aa") "/p" ∧
      ({ mrStore "f2f2f2f2" "111111aa" with
          mrs := [⟨7, "/p", "f2f2f2f2", "111111aa", MergeStatus.Closed⟩],
          comments := [⟨7, 0, some "Mega closed MR due to conflict"⟩] } : Storage).refs =
        (mrStore "f2f2f2f2" "111111aa").refs :=
  ⟨by decide,
    push_preserves_subpath_ref (repoP (some "ffffff00") (some "222222bb")) oneCommitPack
      (mrStore "f2f2f2f2" "111111aa") _ (by decide)⟩

end Ceres


namespace Ceres

theorem find_replace_ref (l : List MegaRef) (p c t : String)
    (h : l.any (fun r => r.path == p) = true) :
    (l.map (fun r => if r.path = p then (⟨p, c, t⟩ : MegaRef) else r)).find? (fun r => r.path == p) =
      some (⟨p, c, t⟩ : MegaRef) := by
  induction l with
  | nil => simp at h
  | cons r rs ih =>
    by_cases hp : r.path = p
    · simp only [List.map_cons, if_pos hp]
      exact List.find?_cons_of_pos _ (by simp)
    · have h' : rs.any (fun r => r.path == p) = true := by
        simp only [List.any_cons, Bool.or_eq_true, beq_iff_eq] at h
        rcases h with h | h
        · exact absurd h hp
        · simpa using h
      simp only [List.map_cons, if_neg hp]
      rw [List.find?_cons_of_neg _ (by simp [hp])]
      exact ih h'

theorem get_ref_save_ref (s : Storage) (p c t : String) :
    get_ref (save_ref s p c t) p = some ⟨p, c, t⟩ := by
  unfold save_ref get_ref
  split_ifs with hany
  · exact find_replace_ref s.refs p c t hany
  · have hnone : s.refs.find? (fun r => r.path == p) = none := by
      rw [List.find?_eq_none]
      intro x hx
      have hxp : ¬ (x.path == p) = true := by
        intro hb
        exact hany (List.any_eq_true.mpr ⟨x, hx, hb⟩)
      simpa using hxp
    show (s.refs ++ [(⟨p, c, t⟩ : MegaRef)]).find? (fun r => r.path == p) =
      some (⟨p, c, t⟩ : MegaRef)
    rw [List.find?_append, hnone]
    simp [List.find?]

theorem get_ref_congr (s s' : Storage) (p : String) (h : s'.refs = s.refs) :
    get_ref s' p = get_ref s p := by
  unfold get_ref
  rw [h]

/-- C5: when no reference is stored for the subpath and the component
walk succeeds, `head_hash` synthesizes a parentless commit with the
canonical message, persists it together with the subpath reference, and
a second call returns the very same advertisement from the stored
reference without further changes. -/
theorem head_hash_idempotent (repo : MonoRepo) (s : Storage) (r : Refs) (s1 : Storage)
    (hnone : get_ref s repo.path = none)
    (h1 : head_hash repo s = some ([r], s1)) :
    head_hash repo s1 = some ([r], s1) ∧
      ∃ c ∈ s1.commits, c.id = r.ref_hash ∧ c.parent_commit_ids = [] ∧
        c.message = "This commit was generated by mega for maintain refs" := by
  unfold head_hash at h1
  cases hroot : get_ref s "/" with
  | none => simp [hnone, hroot] at h1
  | some root =>
    cases hc0 : get_commit_by_hash s root.ref_commit_hash with
    | none => simp [hnone, hroot, hc0] at h1
    | some commit =>
      cases ht0 : get_tree_by_hash s commit.tree_id with
      | none => simp [hnone, hroot, hc0, ht0] at h1
      | some t0 =>
        cases hw : walk s (pathComponents repo.path) t0 with
        | missing => simp [hnone, hroot, hc0, ht0, hw, check_head_hash] at h1
        | panic => simp [hnone, hroot, hc0, ht0, hw] at h1
        | found tree =>
          simp only [hnone, hroot, hc0, ht0, hw, check_head_hash, Option.some.injEq,
            Prod.mk.injEq, List.cons.injEq, and_true] at h1
          obtain ⟨hr, hs1⟩ := h1
          constructor
          · have hrefs : s1.refs = (save_ref s repo.path
                (Commit.from_tree_id tree.id []
                  "This commit was generated by mega for maintain refs").id
                (Commit.from_tree_id tree.id []
                  "This commit was generated by mega for maintain refs").tree_id).refs := by
              rw [← hs1]
              rfl
            have hget : get_ref s1 repo.path = some ⟨repo.path,
                (Commit.from_tree_id tree.id []
                  "This commit was generated by mega for maintain refs").id,
                (Commit.from_tree_id tree.id []
                  "This commit was generated by mega for maintain refs").tree_id⟩ := by
              rw [get_ref_congr _ _ _ hrefs]
              exact get_ref_save_ref s repo.path _ _
            unfold head_hash
            rw [hget]
            simp only [check_head_hash, refs_of_mega, Option.some.injEq, Prod.mk.injEq,
              List.cons.injEq, and_true]
            exact hr
          · refine ⟨Commit.from_tree_id tree.id []
              "This commit was generated by mega for maintain refs", ?_, ?_, rfl, rfl⟩
            · rw [← hs1]
              simp [save_mega_commits]
            · rw [← hr]

end Ceres

namespace Ceres

theorem head_hash_idempotent_witness :
    get_ref rootStore "/lib" = none ∧
      head_hash repoLib rootStore = some ([libRef], libStore1) ∧
      (head_hash repoLib libStore1 = some ([libRef], libStore1) ∧
        ∃ c ∈ libStore1.commits, c.id = libRef.ref_hash ∧ c.parent_commit_ids = [] ∧
          c.message = "This commit was generated by mega for maintain refs") :=
  ⟨by decide, by decide,
    head_hash_idempotent repoLib rootStore libRef libStore1 (by decide) (by decide)⟩

end Ceres

namespace Ceres

theorem get_commit_id (s : Storage) (h : String) (c : Commit)
    (hl : get_commit_by_hash s h = some c) : c.id = h := by
  unfold get_commit_by_hash at hl
  have := List.find?_some hl
  simpa using this

theorem processParents_inv (s : Storage) (want hv : List String) (temp : Commit) :
    ∀ ps wc tl out, processParents s hv ps wc tl = some out →
    (∀ p ∈ ps, p ∈ temp.parent_commit_ids) →
    ReachAvoid s want hv temp.id →
    get_commit_by_hash s temp.id = some temp →
    WcConsistent s want hv wc →
    TlSub wc tl →
    SeedCovered s want wc →
    (∀ c ∈ wc, c = temp ∨ c ∈ tl ∨
      ∀ p ∈ c.parent_commit_ids, p ∉ hv → ∃ c' ∈ wc, c'.id = p) →
    WcConsistent s want hv out.1 ∧ TlSub out.1 out.2 ∧ SeedCovered s want out.1 ∧
      (∀ c ∈ wc, c ∈ out.1) ∧ (∀ c ∈ tl, c ∈ out.2) ∧
      (∀ c ∈ out.1, c = temp ∨ c ∈ out.2 ∨
        ∀ p ∈ c.parent_commit_ids, p ∉ hv → ∃ c' ∈ out.1, c'.id = p) ∧
      (∀ p ∈ ps, p ∉ hv → ∃ c' ∈ out.1, c'.id = p) := by
  intro ps
  induction ps with
  | nil =>
    intro wc tl out h _ _ _ hcons htl hseed hexc
    simp only [processParents, Option.some.injEq] at h
    subst h
    exact ⟨hcons, htl, hseed, fun c hc => hc, fun c hc => hc, hexc, by simp⟩
  | cons p ps' ih =>
    intro wc tl out h hps htemp htc hcons htl hseed hexc
    simp only [processParents] at h
    split at h
    · rename_i hskip
      obtain ⟨hc1, ht1, hs1, hmono, hmtl, hexc1, hpost⟩ :=
        ih wc tl out h (fun q hq => hps q (by simp [hq])) htemp htc hcons htl hseed hexc
      refine ⟨hc1, ht1, hs1, hmono, hmtl, hexc1, ?_⟩
      intro q hq hnq
      rcases List.mem_cons.mp hq with he | hq'
      · subst he
        rcases hskip with hin | hin
        · exact absurd hin hnq
        · obtain ⟨c', hc'1, hc'2⟩ := List.mem_map.mp hin
          exact ⟨c', hmono c' hc'1, hc'2⟩
      · exact hpost q hq' hnq
    · rename_i hskip
      push_neg at hskip
      obtain ⟨hnhv, hnwc⟩ := hskip
      cases hlook : get_commit_by_hash s p with
      | none => rw [hlook] at h; exact absurd h (by simp)
      | some pc =>
        rw [hlook] at h
        have hpcid : pc.id = p := get_commit_id s p pc hlook
        have hpcreach : ReachAvoid s want hv pc.id := by
          rw [hpcid]
          exact ReachAvoid.step temp.id p temp htemp htc (hps p (by simp)) hnhv
            (by rw [hlook]; rfl)
        have hcons' : WcConsistent s want hv (wc ++ [pc]) := by
          intro c hc
          rcases List.mem_append.mp hc with hc | hc
          · exact hcons c hc
          · rw [List.mem_singleton.mp hc]
            exact ⟨by rw [hpcid]; exact hlook, hpcreach⟩
        have htl' : TlSub (wc ++ [pc]) (pc :: tl) := by
          intro c hc
          rcases List.mem_cons.mp hc with he | hc
          · subst he; simp
          · exact List.mem_append.mpr (Or.inl (htl c hc))
        have hseed' : SeedCovered s want (wc ++ [pc]) := by
          intro q hq hsq
          obtain ⟨c', hc'1, hc'2⟩ := hseed q hq hsq
          exact ⟨c', List.mem_append.mpr (Or.inl hc'1), hc'2⟩
        have hexc' : ∀ c ∈ wc ++ [pc], c = temp ∨ c ∈ pc :: tl ∨
            ∀ q ∈ c.parent_commit_ids, q ∉ hv → ∃ c' ∈ wc ++ [pc], c'.id = q := by
          intro c hc
          rcases List.mem_append.mp hc with hc | hc
          · rcases hexc c hc with he | hin | hcl
            · exact Or.inl he
            · exact Or.inr (Or.inl (List.mem_cons_of_mem _ hin))
            · refine Or.inr (Or.inr ?_)
              intro q hq hnq
              obtain ⟨c', hc'1, hc'2⟩ := hcl q hq hnq
              exact ⟨c', List.mem_append.mpr (Or.inl hc'1), hc'2⟩
          · rw [List.mem_singleton.mp hc]
            exact Or.inr (Or.inl (by simp))
        obtain ⟨hc1, ht1, hs1, hmono, hmtl, hexc1, hpost⟩ :=
          ih (wc ++ [pc]) (pc :: tl) out h (fun q hq => hps q (by simp [hq]))
            htemp htc hcons' htl' hseed' hexc'
        refine ⟨hc1, ht1, hs1, ?_, ?_, hexc1, ?_⟩
        · intro c hc
          exact hmono c (List.mem_append.mpr (Or.inl hc))
        · intro c hc
          exact hmtl c (List.mem_cons_of_mem _ hc)
        · intro q hq hnq
          rcases List.mem_cons.mp hq with he | hq'
          · subst he
            refine ⟨pc, hmono pc (List.mem_append.mpr (Or.inr (by simp))), hpcid⟩
          · exact hpost q hq' hnq

end Ceres

namespace Ceres

theorem frontierLoop_inv (s : Storage) (want hv : List String) :
    ∀ fuel wc tl out, frontierLoop s hv fuel wc tl = some out →
    WcConsistent s want hv wc → TlSub wc tl → SeedCovered s want wc →
    ClosedOrPending s hv wc tl →
    WcConsistent s want hv out ∧ SeedCovered s want out ∧ ClosedOrPending s hv out [] := by
  intro fuel
  induction fuel with
  | zero =>
    intro wc tl out h
    exact absurd h (by simp [frontierLoop])
  | succ f ih =>
    intro wc tl out h hcons htl hseed hclosed
    cases tl with
    | nil =>
      simp only [frontierLoop, Option.some.injEq] at h
      subst h
      exact ⟨hcons, hseed, hclosed⟩
    | cons temp rest =>
      simp only [frontierLoop] at h
      cases hpp : processParents s hv temp.parent_commit_ids wc rest with
      | none => rw [hpp] at h; exact absurd h (by simp)
      | some out1 =>
        rw [hpp] at h
        have htmem : temp ∈ wc := htl temp (by simp)
        obtain ⟨htc, htreach⟩ := hcons temp htmem
        have hexc : ∀ c ∈ wc, c = temp ∨ c ∈ rest ∨
            ∀ p ∈ c.parent_commit_ids, p ∉ hv → ∃ c' ∈ wc, c'.id = p := by
          intro c hc
          rcases hclosed c hc with hin | hcl
          · rcases List.mem_cons.mp hin with he | hr
            · exact Or.inl he
            · exact Or.inr (Or.inl hr)
          · exact Or.inr (Or.inr hcl)
        obtain ⟨hc1, ht1, hs1, _, _, hexc1, hpost⟩ :=
          processParents_inv s want hv temp temp.parent_commit_ids wc rest out1 hpp
            (fun p hp => hp) htreach htc hcons
            (fun c hc => htl c (List.mem_cons_of_mem _ hc)) hseed hexc
        have hclosed1 : ClosedOrPending s hv out1.1 out1.2 := by
          intro c hc
          rcases hexc1 c hc with he | hin | hcl
          · subst he
            exact Or.inr (fun p hp hnp => hpost p hp hnp)
          · exact Or.inl hin
          · exact Or.inr hcl
        exact ih out1.1 out1.2 out h hc1 ht1 hs1 hclosed1

theorem seeds_consistent (s : Storage) (want hv : List String) :
    WcConsistent s want hv (seedCommits s want) := by
  intro c hc
  unfold seedCommits get_commits_by_hashes at hc
  obtain ⟨h, hh, hlk⟩ := List.mem_filterMap.mp hc
  have hid : c.id = h := get_commit_id s h c hlk
  refine ⟨by rw [hid]; exact hlk, ?_⟩
  rw [hid]
  exact ReachAvoid.seed h hh (by rw [hlk]; rfl)

theorem seeds_covered (s : Storage) (want : List String) :
    SeedCovered s want (seedCommits s want) := by
  intro h hh hsome
  obtain ⟨c, hc⟩ := Option.isSome_iff_exists.mp hsome
  exact ⟨c, List.mem_filterMap.mpr ⟨h, hh, hc⟩, get_commit_id s h c hc⟩

theorem reach_in_wc (s : Storage) (want hv : List String) (wc : List Commit)
    (hcons : WcConsistent s want hv wc) (hseed : SeedCovered s want wc)
    (hclosed : ClosedOrPending s hv wc []) :
    ∀ x, ReachAvoid s want hv x → ∃ c ∈ wc, c.id = x := by
  intro x hx
  induction hx with
  | seed h hh hsome => exact hseed h hh hsome
  | step cid p c hre hc hp hnp _ ih =>
    obtain ⟨c', hc'mem, hc'id⟩ := ih
    obtain ⟨hcons', _⟩ := hcons c' hc'mem
    rcases hclosed c' hc'mem with hin | hcl
    · exact absurd hin (List.not_mem_nil c')
    · have hcc : c' = c := by
        have h1 : get_commit_by_hash s cid = some c' := by rw [← hc'id]; exact hcons'
        rw [hc] at h1
        exact (Option.some.injEq _ _).mp h1.symm
      exact hcl p (by rw [hcc]; exact hp) hnp

end Ceres

namespace Ceres

theorem travGo_no_commit (s : Storage) :
    ∀ fuel its e out, travGo s fuel its e = some out →
    ∀ x ∈ out.1, x.obj_type ≠ ObjectType.Commit := by
  intro fuel
  induction fuel with
  | zero =>
    intro its e out h
    cases its with
    | nil =>
      simp only [travGo, Option.some.injEq] at h
      subst h
      simp
    | cons it rest => exact absurd h (by simp [travGo])
  | succ f ih =>
    intro its e out h
    cases its with
    | nil =>
      simp only [travGo, Option.some.injEq] at h
      subst h
      simp
    | cons it rest =>
      simp only [travGo] at h
      cases hmode : it.mode
      all_goals simp only [hmode] at h
      case Commit => exact ih rest e out h
      case Tree =>
        by_cases hmem : it.id ∈ e
        · rw [if_pos hmem] at h
          exact ih rest e out h
        · rw [if_neg hmem] at h
          cases hlk : get_tree_by_hash s it.id with
          | none => simp [hlk] at h
          | some t =>
            cases hin : travGo s f (t.tree_items ++ rest) (it.id :: e) with
            | none => simp [hlk, hin] at h
            | some pr =>
              simp only [hlk, hin, Option.some.injEq] at h
              subst h
              intro x hx
              rcases List.mem_cons.mp hx with he | hx'
              · subst he
                simp
              · exact ih _ _ pr hin x hx'
      case Blob =>
        by_cases hmem : it.id ∈ e
        · rw [if_pos hmem] at h
          exact ih rest e out h
        · rw [if_neg hmem] at h
          cases hin : travGo s f rest (it.id :: e) with
          | none => simp [hin] at h
          | some pr =>
            simp only [hin, Option.some.injEq] at h
            subst h
            intro x hx
            rcases List.mem_cons.mp hx with he | hx'
            · subst he
              simp
            · exact ih _ _ pr hin x hx'
      case Link =>
        by_cases hmem : it.id ∈ e
        · rw [if_pos hmem] at h
          exact ih rest e out h
        · rw [if_neg hmem] at h
          cases hin : travGo s f rest (it.id :: e) with
          | none => simp [hin] at h
          | some pr =>
            simp only [hin, Option.some.injEq] at h
            subst h
            intro x hx
            rcases List.mem_cons.mp hx with he | hx'
            · subst he
              simp
            · exact ih _ _ pr hin x hx'

theorem traverse_no_commit (s : Storage) (t : Tree) (e : List String)
    (out : List Entry × List String) (h : traverse_want_trees s t e = some out) :
    ∀ x ∈ out.1, x.obj_type ≠ ObjectType.Commit := by
  unfold traverse_want_trees at h
  by_cases hmem : t.id ∈ e
  · rw [if_pos hmem] at h
    simp only [Option.some.injEq] at h
    subst h
    simp
  · rw [if_neg hmem] at h
    cases hin : travGo s (travFuel s) t.tree_items (t.id :: e) with
    | none => simp [hin] at h
    | some pr =>
      simp only [hin, Option.some.injEq] at h
      subst h
      intro x hx
      rcases List.mem_cons.mp hx with he | hx'
      · subst he
        simp
      · exact travGo_no_commit s (travFuel s) t.tree_items (t.id :: e) pr hin x hx'

theorem emitLoop_commits (s : Storage) (hv : List String) :
    ∀ cs e out L, emitLoop s hv cs e out = some L →
    ∀ x, (⟨ObjectType.Commit, x⟩ : Entry) ∈ L ↔
      ((⟨ObjectType.Commit, x⟩ : Entry) ∈ out ∨ ∃ c ∈ cs, c.id = x) := by
  intro cs
  induction cs with
  | nil =>
    intro e out L h x
    simp only [emitLoop, Option.some.injEq] at h
    subst h
    simp
  | cons c rest ih =>
    intro e out L h x
    simp only [emitLoop] at h
    cases h1 : seedHaveList s
        (get_commits_by_hashes s (c.parent_commit_ids.filter (fun p => decide (p ∈ hv)))) e with
    | none => simp [h1] at h
    | some e1 =>
      simp only [h1] at h
      cases h2 : get_tree_by_hash s c.tree_id with
      | none => simp [h2] at h
      | some t =>
        simp only [h2] at h
        cases h3 : traverse_want_trees s t e1 with
        | none => simp [h3] at h
        | some pr =>
          obtain ⟨em, e2⟩ := pr
          simp only [h3] at h
          rw [ih e1 (out ++ em ++ [⟨ObjectType.Commit, c.id⟩]) L h x]
          have hnc := traverse_no_commit s t e1 (em, e2) h3
          constructor
          · rintro (hin | ⟨c', hc', hid⟩)
            · rcases List.mem_append.mp hin with hin | hin
              · rcases List.mem_append.mp hin with hin | hin
                · exact Or.inl hin
                · exact absurd rfl (hnc _ hin)
              · rcases List.mem_singleton.mp hin with he
                refine Or.inr ⟨c, by simp, ?_⟩
                have := congrArg Entry.hash he
                simpa using this.symm
            · exact Or.inr ⟨c', by simp [hc'], hid⟩
          · rintro (hin | ⟨c', hc', hid⟩)
            · exact Or.inl (List.mem_append.mpr (Or.inl (List.mem_append.mpr (Or.inl hin))))
            · rcases List.mem_cons.mp hc' with he | hc''
              · subst he
                refine Or.inl (List.mem_append.mpr (Or.inr ?_))
                simp [hid]
              · exact Or.inr ⟨c', hc'', hid⟩

end Ceres

namespace Ceres

/-- C1 (amended): the commits `incremental_pack` emits are exactly those
reachable from `want` along parent chains that avoid `have` — the
frontier stops at `have` commits rather than subtracting everything
reachable from `have`. -/
theorem incremental_pack_commits_reach_avoid (s : Storage) (want hv : List String)
    (L : List Entry) (h : incremental_pack s want hv = some L) (x : String) :
    (⟨ObjectType.Commit, x⟩ : Entry) ∈ L ↔ ReachAvoid s want hv x := by
  unfold incremental_pack at h
  cases hf : frontierLoop s hv (frontierFuel s want) (seedCommits s want)
      (seedCommits s want).reverse with
  | none => simp [hf] at h
  | some wc =>
    simp only [hf] at h
    obtain ⟨hcons, hseed, hclosed⟩ := frontierLoop_inv s want hv _ _ _ _ hf
      (seeds_consistent s want hv)
      (fun c hc => List.mem_reverse.mp hc)
      (seeds_covered s want)
      (fun c hc => Or.inl (List.mem_reverse.mpr hc))
    rw [emitLoop_commits s hv wc [] [] L h x]
    simp only [List.not_mem_nil, false_or]
    constructor
    · rintro ⟨c, hc, hcid⟩
      rw [← hcid]
      exact (hcons c hc).2
    · intro hre
      exact reach_in_wc s want hv wc hcons hseed hclosed x hre

/-- C1 counterexample: on the diamond store with `want = [c]`,
`have = [a]` (both resolving to stored commits), the emitted object set
is not `reachable(want) ∖ reachable(have)` — the shared root commit `p`,
its tree and blob are emitted although they are reachable from `a`. -/
theorem incremental_pack_not_reachable_difference :
    incremental_pack diamondStore ["c"] ["a"] = some c1Emitted ∧
      reachableObjects diamondStore ["c"] = some c1RW ∧
      reachableObjects diamondStore ["a"] = some c1RH ∧
      ¬ eqAsSets (c1Emitted.map (fun e => e.hash)) (c1RW.filter (fun x => x ∉ c1RH)) := by
  exact ⟨by decide, by decide, by decide, by decide⟩

theorem incremental_pack_commits_reach_avoid_witness :
    ((⟨ObjectType.Commit, "p"⟩ : Entry) ∈ c1Emitted ↔
      ReachAvoid diamondStore ["c"] ["a"] "p") :=
  incremental_pack_commits_reach_avoid diamondStore ["c"] ["a"] c1Emitted (by decide) "p"

end Ceres
